import Mathlib

/-!
# cronroutine: cron expressions and occurrence times

A shallow embedding of the cron engine of `cronroutine` (`cron.go`, `ctime.go`,
`utils.go`) together with theorems about it.

Modelling conventions.

* A Go `int` is an `Int` lying in the signed 64-bit range; arithmetic performed by
  the repository code is wrapped with `wrap64`.
* A Go `string` is a `String` (a sequence of Unicode scalar values).
* A Go `[]int` is an `Option (List Int)`: `none` is the `nil` slice.
* A call of a Go function yields a `Res`: it returns a value, returns a non-nil
  `error`, panics, or never returns.
* A `time.Time` is a count of nanoseconds since 1970-01-01T00:00:00Z, read on the
  proleptic Gregorian calendar in UTC.
-/

namespace Cronroutine

/-! ## Outcomes and errors -/

/-- The two error kinds of `strconv.Atoi`: `strconv.ErrSyntax` and `strconv.ErrRange`. -/
inductive NumErrKind where
  | invalidSyntax
  | outOfRange
  deriving DecidableEq, Repr

/-- Error values built by the parser. `atoi` is the `*strconv.NumError` of
`strconv.Atoi`; `plain` is a `fmt.Errorf` whose message is fully rendered;
`wrap msg e` is `fmt.Errorf(msg + ": %w", e)`; `wrapQ msg v e` is
`fmt.Errorf(msg + " %q: %w", v, e)`. -/
inductive Err where
  | atoi (num : String) (kind : NumErrKind)
  | plain (msg : String)
  | wrap (msg : String) (inner : Err)
  | wrapQ (msg : String) (quoted : String) (inner : Err)
  deriving DecidableEq, Repr

/-- Text of `strconv.ErrSyntax` and `strconv.ErrRange`. -/
def NumErrKind.text : NumErrKind → String
  | .invalidSyntax => "invalid syntax"
  | .outOfRange => "value out of range"

/-- The `Error()` text of an error value. The library function `strconv.Quote`,
which renders `%q`, is taken as the parameter `quote`. -/
def Err.Error (quote : String → String) : Err → String
  | .atoi num kind => "strconv.Atoi: parsing " ++ quote num ++ ": " ++ kind.text
  | .plain msg => msg
  | .wrap msg inner => msg ++ ": " ++ inner.Error quote
  | .wrapQ msg quoted inner => msg ++ " " ++ quote quoted ++ ": " ++ inner.Error quote

/-- Outcome of a call: a returned value (with a nil error), a returned non-nil
error, a run-time panic, or a call that never returns. -/
inductive Res (α : Type) where
  | ok (a : α)
  | error (e : Err)
  | panic
  | diverge
  deriving DecidableEq, Repr

/-! ## Machine integers -/

/-- Smallest Go `int` on a 64-bit platform. -/
def minInt64 : Int := -9223372036854775808

/-- Largest Go `int` on a 64-bit platform. -/
def maxInt64 : Int := 9223372036854775807

/-- Two's-complement wrap-around of a mathematical integer into the `int` range. -/
def wrap64 (x : Int) : Int :=
  (x + 9223372036854775808) % 18446744073709551616 - 9223372036854775808

/-- The value is representable as a Go `int`. -/
def inInt64 (x : Int) : Prop := minInt64 ≤ x ∧ x ≤ maxInt64

instance (x : Int) : Decidable (inInt64 x) := by unfold inInt64; exact inferInstance

/-! ## Library functions used by the parser -/

/-- Go `unicode.IsSpace`. -/
def isSpace (c : Char) : Bool :=
  let n := c.toNat
  n = 9 || n = 10 || n = 11 || n = 12 || n = 13 || n = 32 || n = 133 || n = 160 ||
  n = 5760 || (8192 ≤ n && n ≤ 8202) || n = 8232 || n = 8233 || n = 8239 ||
  n = 8287 || n = 12288

/-- Scanning loop of `strings.Fields`: `cur` is the field being read. -/
def fieldsLoop : List Char → List Char → List (List Char)
  | [], cur => if cur = [] then [] else [cur]
  | c :: rest, cur =>
    if isSpace c then
      (if cur = [] then fieldsLoop rest [] else cur :: fieldsLoop rest [])
    else fieldsLoop rest (cur ++ [c])

/-- Go `strings.Fields`: the maximal runs of non-space characters. -/
def Fields (s : String) : List String :=
  (fieldsLoop s.toList []).map String.mk

/-- Scanning loop of `strings.Split` for a one-character separator. -/
def splitLoop (sep : Char) : List Char → List Char → List (List Char)
  | [], cur => [cur]
  | c :: rest, cur =>
    if c = sep then cur :: splitLoop sep rest [] else splitLoop sep rest (cur ++ [c])

/-- Go `strings.Split(s, sep)`; every call site passes a one-character separator. -/
def Split (s : String) (sep : Char) : List String :=
  (splitLoop sep s.toList []).map String.mk

/-- Go `strings.Contains(s, sep)` for a one-character `sep`. -/
def Contains (s : String) (sep : Char) : Bool :=
  s.toList.contains sep

/-- Digit loop of `strconv.ParseUint` in base 10 with 64 bits: the first
offending character decides between a syntax and a range error. -/
def parseUintLoop : List Char → Nat → Except NumErrKind Nat
  | [], n => .ok n
  | c :: rest, n =>
    if 48 ≤ c.toNat ∧ c.toNat ≤ 57 then
      if n ≥ 1844674407370955162 then .error .outOfRange
      else
        let n1 := n * 10 + (c.toNat - 48)
        if n1 > 18446744073709551615 then .error .outOfRange
        else parseUintLoop rest n1
    else .error .invalidSyntax

/-- Go `strconv.ParseInt(s, 10, 0)` on a 64-bit platform. -/
def parseInt (s : List Char) : Except NumErrKind Int :=
  match s with
  | [] => .error .invalidSyntax
  | c :: rest =>
    let neg := decide (c = '-')
    let digits := if c = '+' ∨ c = '-' then rest else c :: rest
    match digits with
    | [] => .error .invalidSyntax
    | _ :: _ =>
      match parseUintLoop digits 0 with
      | .error k => .error k
      | .ok un =>
        if ¬ neg ∧ un ≥ 9223372036854775808 then .error .outOfRange
        else if neg ∧ un > 9223372036854775808 then .error .outOfRange
        else .ok (if neg then - (un : Int) else (un : Int))

/-- Go `strconv.Atoi`. -/
def Atoi (s : String) : Res Int :=
  match parseInt s.toList with
  | .ok n => .ok n
  | .error k => .error (.atoi s k)

/-! ## utils.go -/

/-- The loop of `sliceWithStep`: `for i := minValue; i <= maxValue; i += step`.
The counter wraps like a Go `int`. The fuel counts the remaining iterations. -/
def sliceWithStepLoop (maxValue step : Int) : Nat → Int → List Int → Res (List Int)
  | 0, _, _ => .diverge
  | fuel + 1, i, numbers =>
    if i ≤ maxValue then
      sliceWithStepLoop maxValue step fuel (wrap64 (i + step)) (numbers ++ [i])
    else .ok numbers

/-- Capacity passed to `make` in `sliceWithStep`: `(maxValue-minValue)/step+1`,
with Go's truncated division. -/
def sliceCap (minValue maxValue step : Int) : Int :=
  wrap64 (wrap64 (Int.tdiv (wrap64 (maxValue - minValue)) step) + 1)

/-- Go `sliceWithStep`. A zero step panics in the division and a negative
capacity panics in `make`. The counter has only 2^64 states, so a loop that has
not ended after 2^64 iterations never ends. Allocation limits are not modelled. -/
def sliceWithStep (minValue maxValue step : Int) : Res (List Int) :=
  if step = 0 then .panic
  else if sliceCap minValue maxValue step < 0 then .panic
  else sliceWithStepLoop maxValue step 18446744073709551616 minValue []

/-- Go `sortUnique`: the distinct values (the keys of the map), sorted. -/
def sortUnique (numbers : List Int) : List Int :=
  (numbers.dedup).insertionSort (· ≤ ·)

/-- Go `getFirstElementGreaterThan`: panics on a nil slice, and on an empty one
at `slice[0]`. -/
def getFirstElementGreaterThan (slice : Option (List Int)) (value : Int) : Res Int :=
  match slice with
  | none => .panic
  | some l =>
    match l.find? (fun element => decide (element > value)) with
    | some element => .ok element
    | none =>
      match l with
      | [] => .panic
      | first :: _ => .ok first

/-! ## cron.go: parsing -/

/-- Go `Cron`. -/
structure Cron where
  Minute : Option (List Int)
  Hour : Option (List Int)
  DayOfMonth : Option (List Int)
  Month : Option (List Int)
  DayOfWeek : Option (List Int)
  deriving DecidableEq, Repr

/-- Message of the range check of a plain number or of a step start. -/
def errValueRange (number minValue maxValue : Int) : Err :=
  .plain ("value " ++ toString number ++ " is not in range " ++ toString minValue ++ "-"
    ++ toString maxValue)

/-- Message of the range check of the start of a range. -/
def errStartRange (number minValue maxValue : Int) : Err :=
  .plain ("start value " ++ toString number ++ " is not in range " ++ toString minValue
    ++ "-" ++ toString maxValue)

/-- Message of the range check of the end of a range. -/
def errEndRange (number minValue maxValue : Int) : Err :=
  .plain ("end value " ++ toString number ++ " is not in range " ++ toString minValue
    ++ "-" ++ toString maxValue)

/-- Message for a range whose start exceeds its end. -/
def errStartGreater (startNum endNum : Int) : Err :=
  .plain ("start value " ++ toString startNum ++ " is greater than end value "
    ++ toString endNum)

/-- Message for a step below one. -/
def errStep (step : Int) : Err :=
  .plain ("step value " ++ toString step ++ " is less than 1")

/-- Message for a wrong number of parts. -/
def errParts (n : Nat) (value : String) : Err :=
  .plain ("expected 2 parts but got " ++ toString n ++ " when parsing " ++ value)

/-- Go `parseRange`. -/
def parseRange (value : String) (minValue maxValue : Int) : Res (List Int) :=
  match Split value '-' with
  | [p0, p1] =>
    match Atoi p0 with
    | .ok startNum =>
      match Atoi p1 with
      | .ok endNum =>
        if startNum < minValue ∨ startNum > maxValue then
          .error (errStartRange startNum minValue maxValue)
        else if endNum < minValue ∨ endNum > maxValue then
          .error (errEndRange endNum minValue maxValue)
        else if startNum > endNum then .error (errStartGreater startNum endNum)
        else sliceWithStep startNum endNum 1
      | .error e => .error (.wrap "failed to parse end int" e)
      | .panic => .panic
      | .diverge => .diverge
    | .error e => .error (.wrap "failed to parse start int" e)
    | .panic => .panic
    | .diverge => .diverge
  | parts => .error (errParts parts.length value)

/-- Go `parseSlashRange`. -/
def parseSlashRange (value step : String) (minValue maxValue : Int) : Res (List Int) :=
  match Split value '-' with
  | [p0, p1] =>
    match Atoi p0 with
    | .ok start =>
      match Atoi p1 with
      | .ok finish =>
        if start < minValue ∨ start > maxValue then
          .error (errStartRange start minValue maxValue)
        else if finish < minValue ∨ finish > maxValue then
          .error (errEndRange finish minValue maxValue)
        else if start > finish then .error (errStartGreater start finish)
        else
          match Atoi step with
          | .ok stepNum =>
            if stepNum < 1 then .error (errStep stepNum)
            else sliceWithStep start finish stepNum
          | .error e => .error (.wrap "failed to parse step int" e)
          | .panic => .panic
          | .diverge => .diverge
      | .error e => .error (.wrap "failed to parse end int" e)
      | .panic => .panic
      | .diverge => .diverge
    | .error e => .error (.wrap "failed to parse start int" e)
    | .panic => .panic
    | .diverge => .diverge
  | parts => .error (errParts parts.length value)

/-- Go `parseSlash`. -/
def parseSlash (value : String) (minValue maxValue : Int) : Res (List Int) :=
  match Split value '/' with
  | [p0, p1] =>
    match Atoi p1 with
    | .ok step =>
      if step < 1 then .error (errStep step)
      else if Contains p0 '-' then parseSlashRange p0 p1 minValue maxValue
      else
        match Atoi p0 with
        | .ok start =>
          if start < minValue ∨ start > maxValue then
            .error (errValueRange start minValue maxValue)
          else sliceWithStep start maxValue step
        | .error e => .error (.wrap "failed to parse number" e)
        | .panic => .panic
        | .diverge => .diverge
    | .error e => .error (.wrap "failed to parse step int" e)
    | .panic => .panic
    | .diverge => .diverge
  | parts => .error (errParts parts.length value)

/-- Go `parseNumber`. -/
def parseNumber (value : String) (minValue maxValue : Int) : Res (List Int) :=
  if value = "*" then sliceWithStep minValue maxValue 1
  else if Contains value '/' then
    match parseSlash value minValue maxValue with
    | .ok ret => .ok ret
    | .error e => .error (.wrapQ "failed to parse slash" value e)
    | .panic => .panic
    | .diverge => .diverge
  else if Contains value '-' then
    match parseRange value minValue maxValue with
    | .ok ret => .ok ret
    | .error e => .error (.wrapQ "failed to parse range" value e)
    | .panic => .panic
    | .diverge => .diverge
  else
    match Atoi value with
    | .ok number =>
      if number < minValue ∨ number > maxValue then
        .error (errValueRange number minValue maxValue)
      else .ok [number]
    | .error e => .error (.wrap "failed to parse int" e)
    | .panic => .panic
    | .diverge => .diverge

/-- The loop of `parseField` over the comma-separated items. -/
def parseFieldLoop (minValue maxValue : Int) : List String → List Int → Res (List Int)
  | [], numbers => .ok numbers
  | value :: rest, numbers =>
    match parseNumber value minValue maxValue with
    | .ok number => parseFieldLoop minValue maxValue rest (numbers ++ number)
    | .error e => .error (.wrap "failed to parse number" e)
    | .panic => .panic
    | .diverge => .diverge

/-- Go `parseField`. -/
def parseField (field : String) (minValue maxValue : Int) : Res (List Int) :=
  if field = "*" then sliceWithStep minValue maxValue 1
  else
    match parseFieldLoop minValue maxValue (Split field ',') [] with
    | .ok numbers => .ok (sortUnique numbers)
    | .error e => .error e
    | .panic => .panic
    | .diverge => .diverge

/-- Go `NewCron`. -/
def NewCron (minute hour dayOfMonth month dayOfWeek : String) : Res Cron :=
  match parseField minute 0 59 with
  | .error e => .error (.wrap "failed to parse minute" e)
  | .panic => .panic
  | .diverge => .diverge
  | .ok m =>
    match parseField hour 0 23 with
    | .error e => .error (.wrap "failed to parse hour" e)
    | .panic => .panic
    | .diverge => .diverge
    | .ok h =>
      match parseField dayOfMonth 1 31 with
      | .error e => .error (.wrap "failed to parse day of month" e)
      | .panic => .panic
      | .diverge => .diverge
      | .ok dm =>
        match parseField month 1 12 with
        | .error e => .error (.wrap "failed to parse month" e)
        | .panic => .panic
        | .diverge => .diverge
        | .ok mo =>
          match parseField dayOfWeek 0 6 with
          | .error e => .error (.wrap "failed to parse day of week" e)
          | .panic => .panic
          | .diverge => .diverge
          | .ok dw =>
            let c : Cron := ⟨some m, some h, some dm, some mo, some dw⟩
            if dayOfMonth = "*" ∧ dayOfWeek ≠ "*" then
              .ok { c with DayOfMonth := none }
            else if dayOfMonth ≠ "*" ∧ dayOfWeek = "*" then
              .ok { c with DayOfWeek := none }
            else .ok c

/-- Message of the field-count check of `ParseCron`. -/
def errFieldCount (n : Nat) (cronConfig : String) : Err :=
  .plain ("given " ++ toString n ++ " but need 5 fields for valid cron config: "
    ++ cronConfig)

/-- Go `ParseCron`. -/
def ParseCron (cronConfig : String) : Res Cron :=
  match Fields cronConfig with
  | [f0, f1, f2, f3, f4] => NewCron f0 f1 f2 f3 f4
  | fields => .error (errFieldCount fields.length cronConfig)

/-! ## Library model: `time` -/

/-- Go `time.Time` in UTC: nanoseconds since 1970-01-01T00:00:00Z. A Go value
keeps its whole seconds since January 1 of year 1 in an `int64`; `Date` wraps its
result into that range. The calendar methods below are exact from the start of
the absolute zero year -292277022399 of the package on, before which the package
itself does not compute correctly. -/
structure Time where
  unixNano : Int
  deriving DecidableEq, Repr

/-- Go `time.Duration`: a count of nanoseconds. -/
abbrev Duration := Int

/-- Go `Time.After`. -/
def Time.After (t u : Time) : Bool := decide (t.unixNano > u.unixNano)

/-- Go `Time.Before`. -/
def Time.Before (t u : Time) : Bool := decide (t.unixNano < u.unixNano)

/-- Go `Time.Add`. -/
def Time.Add (t : Time) (d : Duration) : Time := ⟨t.unixNano + d⟩

/-- Go `Time.UTC`: the instant is unchanged. -/
def Time.UTC (t : Time) : Time := t

/-- Days from 1970-01-01 to the given day of the proleptic Gregorian calendar,
for a month in 1..12; linear in the day, which may lie outside the month. -/
def daysFromCivil (y m d : Int) : Int :=
  let y1 := if m ≤ 2 then y - 1 else y
  let era := y1 / 400
  let yoe := y1 - era * 400
  let doy := (153 * (if m > 2 then m - 3 else m + 9) + 2) / 5 + d - 1
  let doe := yoe * 365 + yoe / 4 - yoe / 100 + doy
  era * 146097 + doe - 719468

/-- Year, month and day of the day that lies `z` days after 1970-01-01. -/
def civilFromDays (z : Int) : Int × Int × Int :=
  let z1 := z + 719468
  let era := z1 / 146097
  let doe := z1 - era * 146097
  let yoe := (doe - doe / 1460 + doe / 36524 - doe / 146096) / 365
  let doy := doe - (365 * yoe + yoe / 4 - yoe / 100)
  let mp := (5 * doy + 2) / 153
  let d := doy - (153 * mp + 2) / 5 + 1
  let m := if mp < 10 then mp + 3 else mp - 9
  (if m ≤ 2 then yoe + era * 400 + 1 else yoe + era * 400, m, d)

/-- The seconds of an instant since January 1 of year 1 (62135596800 seconds
before the Unix epoch) wrapped into an `int64`, as the field `ext` of a
`time.Time` holds them; the nanoseconds within the second are kept. -/
def wrapInstant (unixNano : Int) : Int :=
  (wrap64 (unixNano / 1000000000 + 62135596800) - 62135596800) * 1000000000
    + unixNano % 1000000000

/-- Go `time.Date(year, month, day, hour, min, sec, nsec, time.UTC)`: values
outside their usual ranges are normalised (October 32 is November 1), and the
seconds of the result wrap around in an `int64`, the package adding up days and
seconds in 64-bit arithmetic without a check. The count of days is the one the
package computes for a year not before its absolute zero year -292277022399. -/
def Date (year month day hour min sec nsec : Int) : Time :=
  let m := month - 1
  let days := daysFromCivil (year + m / 12) (m % 12 + 1) day
  ⟨wrapInstant ((((days * 24 + hour) * 60 + min) * 60 + sec) * 1000000000 + nsec)⟩

/-- Whole seconds since the epoch, rounded down. -/
def Time.unixSec (t : Time) : Int := t.unixNano / 1000000000

/-- Whole days since the epoch, rounded down. -/
def Time.unixDay (t : Time) : Int := t.unixSec / 86400

/-- Go `Time.Year`. -/
def Time.Year (t : Time) : Int := (civilFromDays t.unixDay).1

/-- Go `Time.Month`, as a number in 1..12. -/
def Time.Month (t : Time) : Int := (civilFromDays t.unixDay).2.1

/-- Go `Time.Day`. -/
def Time.Day (t : Time) : Int := (civilFromDays t.unixDay).2.2

/-- Go `Time.Hour`. -/
def Time.Hour (t : Time) : Int := t.unixSec % 86400 / 3600

/-- Go `Time.Minute`. -/
def Time.Minute (t : Time) : Int := t.unixSec % 3600 / 60

/-- Go `Time.Weekday`, Sunday being 0. -/
def Time.Weekday (t : Time) : Int := (t.unixDay + 4) % 7

/-! ## ctime.go -/

/-- Go `ctime`. -/
structure ctime where
  minute : Int
  hour : Int
  dayOfMonth : Int
  month : Int
  dayOfWeek : Int
  year : Int
  deriving DecidableEq, Repr

/-- Go `newCTime`. -/
def newCTime (t : Time) : ctime :=
  { minute := t.Minute, hour := t.Hour, dayOfMonth := t.Day, month := t.Month,
    dayOfWeek := t.Weekday, year := t.Year }

/-- Go `(*ctime).time`; the constants `second` and `nanosecond` are 0. -/
def ctime.time (ct : ctime) : Time :=
  Date ct.year ct.month ct.dayOfMonth ct.hour ct.minute 0 0

/-! ## cron.go: occurrences -/

/-- Sequencing of calls: a call that does not return a value ends the caller. -/
def Res.bind {α β : Type} (r : Res α) (f : α → Res β) : Res β :=
  match r with
  | .ok a => f a
  | .error e => .error e
  | .panic => .panic
  | .diverge => .diverge

/-- Go `slices.Index`: position of the first occurrence, or -1. -/
def slicesIndex (o : List Int) (v : Int) : Int :=
  match o.indexOf? v with
  | some i => (i : Int)
  | none => -1

/-- Indexing `o[i]` of a Go slice: out of range panics. -/
def sliceAt (o : List Int) (i : Int) : Res Int :=
  if i < 0 then .panic
  else
    match o.get? i.toNat with
    | some v => .ok v
    | none => .panic

/-- Go `nextDay`. -/
def nextDay (cronDayOfWeek cronDayOfMonth : Option (List Int))
    (currentDayOfWeek currentDayOfMonth : Int) : Res Int :=
  if cronDayOfMonth = none ∧ cronDayOfWeek = none then
    .ok (wrap64 (currentDayOfMonth + 1))
  else
    let o0 : List Int := [currentDayOfMonth]
    (if cronDayOfMonth ≠ none then
      (getFirstElementGreaterThan cronDayOfMonth currentDayOfMonth).bind
        fun e => .ok (o0 ++ [e])
     else .ok o0).bind fun o1 =>
    (if cronDayOfWeek ≠ none then
      (getFirstElementGreaterThan cronDayOfWeek currentDayOfWeek).bind fun e =>
        let daysUntilJob := Int.tmod (wrap64 (wrap64 (e - currentDayOfWeek) + 7)) 7
        .ok (o1 ++ [Int.tmod (wrap64 (currentDayOfMonth + daysUntilJob)) 31])
     else .ok o1).bind fun o2 =>
    let o := o2.insertionSort (· ≤ ·)
    sliceAt o (Int.tmod (wrap64 (slicesIndex o currentDayOfMonth + 1)) (o.length : Int))

/-- Go `(*Cron).next`. -/
def Cron.next (c : Cron) (t : Time) : Res Time :=
  let ct0 := newCTime t
  (getFirstElementGreaterThan c.Minute ct0.minute).bind fun minute =>
  let ct1 := { ct0 with minute := minute }
  (if !ct1.time.After t then
    (getFirstElementGreaterThan c.Hour ct1.hour).bind fun hour =>
      .ok { ct1 with hour := hour }
   else .ok ct1).bind fun ct2 =>
  (if !ct2.time.After t then
    (nextDay c.DayOfWeek c.DayOfMonth ct2.dayOfWeek ct2.dayOfMonth).bind fun day =>
      .ok { ct2 with dayOfMonth := day }
   else .ok ct2).bind fun ct3 =>
  (if !ct3.time.After t then
    (getFirstElementGreaterThan c.Month ct3.month).bind fun month =>
      .ok { ct3 with month := month }
   else .ok ct3).bind fun ct4 =>
  let ct5 := if !ct4.time.After t then { ct4 with year := wrap64 (ct4.year + 1) } else ct4
  .ok ct5.time

/-- The loop of `nextFor`: `next` is the loop variable and `times` the slice
built so far. `none` means that `fuel` iterations did not end the loop. -/
def nextForLoop (c : Cron) (limit : Time) :
    Nat → Time → List Time → Option (Res (List Time))
  | 0, _, _ => none
  | fuel + 1, next, times =>
    if next.Before limit then
      match c.next next with
      | .ok next1 => nextForLoop c limit fuel next1 (times ++ [next])
      | .error e => some (.error e)
      | .panic => some .panic
      | .diverge => some .diverge
    else some (.ok times)

/-- Go `(*Cron).nextFor`, run for at most `fuel` iterations of its loop. -/
def Cron.nextFor (c : Cron) (fuel : Nat) (start : Time) (t : Duration) :
    Option (Res (List Time)) :=
  match c.next start with
  | .ok next => nextForLoop c (start.UTC.Add t) fuel next []
  | .error e => some (.error e)
  | .panic => some .panic
  | .diverge => some .diverge

/-! ## Specification-side predicates -/

/-- The value belongs to a constrained field; a nil field allows nothing. -/
def allowed (set : Option (List Int)) (v : Int) : Bool :=
  match set with
  | some l => decide (v ∈ l)
  | none => false

/-- The day of the instant is allowed by the day fields: by the day of month when
only that is constrained, by the weekday when only that is constrained, by either
one when both are constrained. -/
def dayAllowed (c : Cron) (t : Time) : Bool :=
  match c.DayOfMonth, c.DayOfWeek with
  | some dm, none => decide (t.Day ∈ dm)
  | none, some dw => decide (t.Weekday ∈ dw)
  | some dm, some dw => decide (t.Day ∈ dm) || decide (t.Weekday ∈ dw)
  | none, none => true

/-- The instant matches the expression: minute, hour and month lie in their sets
and the day is allowed by the day fields. -/
def Cron.Matches (c : Cron) (t : Time) : Bool :=
  allowed c.Minute t.Minute && allowed c.Hour t.Hour && allowed c.Month t.Month
    && dayAllowed c t

/-- The instant is a whole minute: seconds and nanoseconds are zero. -/
def Time.wholeMinute (t : Time) : Bool :=
  decide (t.unixNano % 60000000000 = 0)

/-- Every month of the year, the value of the field `*`. -/
def allMonths : List Int := [1, 2, 3, 4, 5, 6, 7, 8, 9, 10, 11, 12]

/-- Every minute of the hour. -/
def allMinutes : List Int :=
  [0, 1, 2, 3, 4, 5, 6, 7, 8, 9, 10, 11, 12, 13, 14, 15, 16, 17, 18, 19, 20, 21, 22,
   23, 24, 25, 26, 27, 28, 29, 30, 31, 32, 33, 34, 35, 36, 37, 38, 39, 40, 41, 42, 43,
   44, 45, 46, 47, 48, 49, 50, 51, 52, 53, 54, 55, 56, 57, 58, 59]

/-- Every hour of the day. -/
def allHours : List Int :=
  [0, 1, 2, 3, 4, 5, 6, 7, 8, 9, 10, 11, 12, 13, 14, 15, 16, 17, 18, 19, 20, 21, 22, 23]

/-- Every day of the month. -/
def allDaysInMonth : List Int :=
  [1, 2, 3, 4, 5, 6, 7, 8, 9, 10, 11, 12, 13, 14, 15, 16, 17, 18, 19, 20, 21, 22, 23,
   24, 25, 26, 27, 28, 29, 30, 31]

/-- Every day of the week. -/
def allDaysOfWeek : List Int := [0, 1, 2, 3, 4, 5, 6]

/-- One minute, as a `Duration`. -/
def minuteDuration : Duration := 60000000000

/-! ## Sample expressions -/

/-- The expression of `30 2 * * 0`: every Sunday at 02:30. -/
def sundayCron : Cron := ⟨some [30], some [2], none, some allMonths, some [0]⟩

/-- The expression of `0 0,13 * * 0`: every Sunday at 00:00 and at 13:00. -/
def sundayTwiceCron : Cron := ⟨some [0], some [0, 13], none, some allMonths, some [0]⟩

/-- The expression of `* * * 2 *`: every minute of February. -/
def februaryCron : Cron :=
  ⟨some allMinutes, some allHours, some allDaysInMonth, some [2], some allDaysOfWeek⟩

/-- Expression parsed from `1/9223372036854775807 * * * *`. -/
def overflowCron : Cron :=
  ⟨some [-9223372036854775808, -1, 1], some allHours, some allDaysInMonth, some allMonths,
   some allDaysOfWeek⟩

/-- Expression parsed from `0 1 * * 1`. -/
def mondayCron : Cron := ⟨some [0], some [1], none, some allMonths, some [1]⟩

/-- Expression parsed from `0 1 1 * *`. -/
def firstOfMonthCron : Cron := ⟨some [0], some [1], some [1], some allMonths, none⟩

/-- A constrained field is a non-empty, strictly increasing list within `lo..hi`;
a nil field is unconstrained. -/
def fieldInvariant (lo hi : Int) (set : Option (List Int)) : Prop :=
  ∀ l, set = some l → l ≠ [] ∧ l.Sorted (· < ·) ∧ ∀ v ∈ l, lo ≤ v ∧ v ≤ hi

/-- Every constrained field of the expression satisfies the invariant of its
domain: minute 0..59, hour 0..23, day of month 1..31, month 1..12, day of week
0..6. -/
def Cron.Valid (c : Cron) : Prop :=
  fieldInvariant 0 59 c.Minute ∧ fieldInvariant 0 23 c.Hour ∧
  fieldInvariant 1 31 c.DayOfMonth ∧ fieldInvariant 1 12 c.Month ∧
  fieldInvariant 0 6 c.DayOfWeek

/-! ## Specification-side values -/

/-- The integers `a, a+1, ..., b` in order (empty when `b < a`). -/
def intsFromTo (a b : Int) : List Int :=
  (List.range (b - a + 1).toNat).map (fun (k : Nat) => a + (k : Int))

/-- Expression parsed from `30 9-17/2 * * 1-5`: every second hour at the half
hour, on weekdays, during working hours. -/
def workingHoursCron : Cron :=
  ⟨some [30], some [9, 11, 13, 15, 17], none, some allMonths, some [1, 2, 3, 4, 5]⟩

/-- Expression parsed from `0 3 1 * *`: at 03:00 on the first of every month. -/
def monthlyCron : Cron := ⟨some [0], some [3], some [1], some allMonths, none⟩

/-- Expression parsed from `* * * * *`: every minute. -/
def everyMinuteCron : Cron :=
  ⟨some allMinutes, some allHours, some allDaysInMonth, some allMonths, some allDaysOfWeek⟩

/-- One hour, as a `Duration`. -/
def hourDuration : Duration := 3600000000000

/-- The instant is one that a Go `time.Time` can hold: the seconds since
January 1 of year 1 fit in an `int64`. -/
def Time.Representable (t : Time) : Prop :=
  minInt64 ≤ t.unixSec + 62135596800 ∧ t.unixSec + 62135596800 ≤ maxInt64

instance (t : Time) : Decidable t.Representable := by
  unfold Time.Representable; exact inferInstance

/-! ## errors.go, history.go, job.go, job_metadata.go, scheduler.go: the registry -/

/-- Error values kept in a history entry: the three error types of `errors.go` and
any other error a work function returns. -/
inductive JobErr where
  | ErrJobRunning
  | ErrPastStartingDeadline
  | ErrJobTimeout
  | workError (msg : String)
  deriving DecidableEq, Repr

/-- The `Error()` text of the error types of `errors.go`. -/
def JobErr.Error : JobErr → String
  | .ErrJobRunning =>
    "job could not start job before deadline because another instance is still running"
  | .ErrPastStartingDeadline => "job could not start before starting deadline"
  | .ErrJobTimeout => "job execution context deadline exceeded"
  | .workError msg => msg

/-- Go `History`; `err` is `none` for a nil error. -/
structure History where
  jobID : String
  ranAt : Time
  err : Option JobErr
  deriving DecidableEq, Repr

/-- Go `JobConfig`; `W` is the type of the work function `Func`. -/
structure JobConfig (W : Type) where
  ID : String
  Schedule : String
  Timeout : Duration
  StartingDeadline : Duration
  AllowConccurentRuns : Bool
  Func : W

/-- Go `Job`, the detached view of a registered job. -/
structure Job (W : Type) where
  jobConfig : JobConfig W
  history : List History
  cron : Cron

/-- Go `jobMetadata`; `running` tells whether the mutex is locked. -/
structure jobMetadata (W : Type) where
  jobConfig : JobConfig W
  history : List History
  historyLimit : Int
  cron : Cron
  running : Bool

/-- Go `(*jobMetadata).History`: a copy of the history. -/
def jobMetadata.History {W : Type} (j : jobMetadata W) : List History := j.history

/-- Go `(*jobMetadata).Job`. -/
def jobMetadata.Job {W : Type} (j : jobMetadata W) : Job W :=
  { jobConfig :=
      { ID := j.jobConfig.ID, Schedule := j.jobConfig.Schedule,
        Timeout := j.jobConfig.Timeout, StartingDeadline := j.jobConfig.StartingDeadline,
        AllowConccurentRuns := j.jobConfig.AllowConccurentRuns, Func := j.jobConfig.Func },
    history := j.History,
    cron := ⟨j.cron.Minute, j.cron.Hour, j.cron.DayOfMonth, j.cron.Month, j.cron.DayOfWeek⟩ }

/-- Go `Scheduler`: the map `jobs` from job ID to job and the history limit. Each
method below holds `jobsLock` for its whole body and is one step on this state;
the logger and the worker pool play no part in these methods. -/
structure Scheduler (W : Type) where
  jobs : String → Option (jobMetadata W)
  historyLimit : Int

/-- Go `(*Scheduler).AddJob`: the outcome and the state it leaves. `make` panics
on a negative `historyLimit`. -/
def Scheduler.AddJob {W : Type} (s : Scheduler W) (job : JobConfig W) :
    Res Unit × Scheduler W :=
  match s.jobs job.ID with
  | some _ => (.error (.plain ("job with ID " ++ job.ID ++ " already exists")), s)
  | none =>
    match ParseCron job.Schedule with
    | .error e => (.error (.wrap "failed to parse cron schedule" e), s)
    | .panic => (.panic, s)
    | .diverge => (.diverge, s)
    | .ok cron =>
      if s.historyLimit < 0 then (.panic, s)
      else
        (.ok (),
         { s with
           jobs := fun id =>
             if id = job.ID then
               some { jobConfig := job, history := [], historyLimit := s.historyLimit,
                      cron := cron, running := false }
             else s.jobs id })

/-- Go `(*Scheduler).GetJob`: the outcome and the state it leaves. -/
def Scheduler.GetJob {W : Type} (s : Scheduler W) (jobID : String) :
    Res (Job W) × Scheduler W :=
  match s.jobs jobID with
  | none => (.error (.plain ("job with ID " ++ jobID ++ " does not exist")), s)
  | some job => (.ok job.Job, s)

/-- Go `(*Scheduler).RemoveJob`: the outcome and the state it leaves. -/
def Scheduler.RemoveJob {W : Type} (s : Scheduler W) (jobID : String) :
    Res Unit × Scheduler W :=
  match s.jobs jobID with
  | none => (.error (.plain ("job with ID " ++ jobID ++ " does not exist")), s)
  | some _ => (.ok (), { s with jobs := fun id => if id = jobID then none else s.jobs id })

/-- A scheduler without jobs, with the default history limit of 10. -/
def emptyScheduler : Scheduler Unit := { jobs := fun _ => none, historyLimit := 10 }

/-- A job that runs every minute. -/
def sampleJob : JobConfig Unit :=
  { ID := "a", Schedule := "* * * * *", Timeout := 0, StartingDeadline := 0,
    AllowConccurentRuns := false, Func := () }

/-- A job with the ID of `sampleJob` and another schedule. -/
def sampleJobAgain : JobConfig Unit :=
  { ID := "a", Schedule := "0 3 1 * *", Timeout := 0, StartingDeadline := 0,
    AllowConccurentRuns := true, Func := () }

/-- The scheduler that holds `sampleJob` alone. -/
def oneJobScheduler : Scheduler Unit := (emptyScheduler.AddJob sampleJob).2

/-! ## job_metadata.go: admission and execution -/

/-- Go `(*jobMetadata).addResult`: the entry is appended, then the oldest entry is
dropped when the history is longer than the limit. -/
def jobMetadata.addResult {W : Type} (j : jobMetadata W) (ranAt : Time)
    (err : Option JobErr) : jobMetadata W :=
  let history := j.history ++ [{ jobID := j.jobConfig.ID, ranAt := ranAt, err := err }]
  if (history.length : Int) > j.historyLimit then { j with history := history.tail }
  else { j with history := history }

/-- The channel from which the `select` of `shouldRun` receives. -/
inductive Admission where
  | lockAquired
  | startingDeadlineExceeded
  deriving DecidableEq, Repr

/-- Go `(*jobMetadata).shouldRun`, as one step on the job: the returned error
(`none` for nil) and the job afterwards. `now` is the value of `time.Now()`. The
repository never unlocks `running`, so on a locked mutex the goroutine that calls
`Lock` stays blocked and only the deadline channel becomes ready. On a free mutex
that goroutine takes it, and `sel` is the channel the `select` receives from. -/
def jobMetadata.shouldRun {W : Type} (j : jobMetadata W) (startTime now : Time)
    (sel : Admission) : Option JobErr × jobMetadata W :=
  let deadline := startTime.Add j.jobConfig.StartingDeadline
  if j.jobConfig.AllowConccurentRuns then
    if now.UTC.After deadline then (some .ErrPastStartingDeadline, j) else (none, j)
  else if j.running then (some .ErrJobRunning, j)
  else
    match sel with
    | .lockAquired => (none, { j with running := true })
    | .startingDeadlineExceeded => (some .ErrJobRunning, { j with running := true })

/-- What the `select` of `run` receives first: the value sent on `errChan` once the
work function has returned `ret`, or the closing of `ctx.Done()` when the timeout
budget has elapsed. -/
inductive Execution where
  | completed (ret : Option JobErr)
  | contextDone
  deriving DecidableEq, Repr

/-- Outcome of the closure built by `run`: the error it returns (`none` for nil),
the job afterwards, and whether the work function was called. -/
structure RunResult (W : Type) where
  ret : Option JobErr
  job : jobMetadata W
  invoked : Bool

/-- Go closure returned by `(*jobMetadata).run`. After the work function has
returned, its goroutine sends `nil` on `errChan`. -/
def jobMetadata.run {W : Type} (j : jobMetadata W) (startTime now : Time)
    (sel : Admission) (exec : Execution) : RunResult W :=
  match j.shouldRun startTime now sel with
  | (some err, j1) =>
    { ret := some err, job := j1.addResult startTime (some err), invoked := false }
  | (none, j1) =>
    match exec with
    | .contextDone =>
      { ret := some .ErrJobTimeout, job := j1.addResult startTime (some .ErrJobTimeout),
        invoked := true }
    | .completed _ =>
      { ret := none, job := j1.addResult startTime none, invoked := true }

/-- History entry of a job for a recorded result. -/
def historyEntry {W : Type} (j : jobMetadata W) (r : Time × Option JobErr) : History :=
  { jobID := j.jobConfig.ID, ranAt := r.1, err := r.2 }

/-- The job after the results `rs` have been recorded one after the other. -/
def recordAll {W : Type} (j : jobMetadata W) (rs : List (Time × Option JobErr)) :
    jobMetadata W :=
  rs.foldl (fun job r => job.addResult r.1 r.2) j

/-- The registered `sampleJob`: concurrent runs are not allowed. -/
def sampleMeta : jobMetadata Unit :=
  { jobConfig := sampleJob, history := [], historyLimit := 10, cron := everyMinuteCron,
    running := false }

/-- A registered job that allows concurrent runs, with a starting deadline of one
minute. -/
def concurrentMeta : jobMetadata Unit :=
  { jobConfig :=
      { ID := "c", Schedule := "* * * * *", Timeout := 0,
        StartingDeadline := minuteDuration, AllowConccurentRuns := true, Func := () },
    history := [], historyLimit := 10, cron := everyMinuteCron, running := false }

/-- The registered `sampleJob` under a history limit of two. -/
def shortHistoryMeta : jobMetadata Unit := { sampleMeta with historyLimit := 2 }

/-- The registered `sampleJob` while its mutex `running` is locked. -/
def busyMeta : jobMetadata Unit := { sampleMeta with running := true }

/-! ## Specification side: the day-merge rule -/

/-- Specification side: the entry that follows `v`, circularly, in the sorted set of
the distinct values of `set`: the smallest value above `v`, or the smallest value
of all when none is above (`v` itself for an empty set). -/
def circularNext (set : List Int) (v : Int) : Int :=
  match (sortUnique set).find? (fun x => decide (x > v)) with
  | some x => x
  | none => (sortUnique set).headD v

/-- Specification side: the candidates contributed by the constrained day fields,
for the current weekday `w` and day of month `d`. -/
def dayCandidates (cronDayOfWeek cronDayOfMonth : Option (List Int)) (w d : Int) :
    List Int :=
  (match cronDayOfMonth with
    | some days => [circularNext days d]
    | none => []) ++
  (match cronDayOfWeek with
    | some days => [(d + (circularNext days w - w + 7) % 7) % 31]
    | none => [])

/-- Specification side of `nextDay`: the entry that follows `d`, circularly, in the
sorted set of the distinct candidates, `d` among them; `d + 1` when both day fields
are unconstrained. -/
def nextDaySpec (cronDayOfWeek cronDayOfMonth : Option (List Int)) (w d : Int) : Int :=
  if cronDayOfMonth = none ∧ cronDayOfWeek = none then d + 1
  else circularNext (d :: dayCandidates cronDayOfWeek cronDayOfMonth w d) d

/-- Expression of the test case `March 3rd every year at 3:32`. -/
def marchThirdCron : Cron := ⟨some [32], some [3], some [3], some [3], some [6]⟩

/-- The cascade of `next` from the instant stays where `time` computes exactly. The
seconds are counted from January 1 of year 1. The instant lies at least 366 days
after -9223371966579724800, the start of the absolute zero year -292277022399 of
the package, so that January 1 of its year, the earliest instant the cascade can
build, does not precede that start; and the start of the minute after the instant,
the latest instant the cascade can build, fits in an `int64`. -/
def Time.NextInRange (t : Time) : Prop :=
  -9223371966548102400 ≤ t.unixSec + 62135596800 ∧
  (t.unixSec / 60 + 1) * 60 + 62135596800 ≤ maxInt64

instance (t : Time) : Decidable t.NextInRange := by
  unfold Time.NextInRange; exact inferInstance

/-- The instant 292277024627-12-06T15:30:05Z, two seconds before the last one a
`time.Time` can hold. -/
def lastMinuteInstant : Time := ⟨9223371974719179005000000000⟩

/-! ## Theorems: occurrences -/

set_option maxRecDepth 100000 in
/-- C1: `30 2 * * 0` parses, and at the reference 2023-12-31T02:30:00Z (a Sunday)
`next` returns the reference itself, which is not strictly after it. -/
theorem next_returns_reference_on_dec31 :
    ParseCron "30 2 * * 0" = .ok sundayCron ∧
    sundayCron.next (Date 2023 12 31 2 30 0 0) = .ok (Date 2023 12 31 2 30 0 0) ∧
    (Date 2023 12 31 2 30 0 0).After (Date 2023 12 31 2 30 0 0) = false := by
  refine ⟨by decide, by decide, by decide⟩

set_option maxRecDepth 100000 in
/-- C2: `* * * 2 *` parses, and at the reference 2021-03-05T00:00:00Z `next`
returns 2021-03-05T00:01:00Z, whose month 3 is not in the Month set `[2]`: the
returned instant does not match the expression. -/
theorem next_result_outside_month_set :
    ParseCron "* * * 2 *" = .ok februaryCron ∧
    februaryCron.next (Date 2021 3 5 0 0 0 0) = .ok (Date 2021 3 5 0 1 0 0) ∧
    (Date 2021 3 5 0 1 0 0).Month = 3 ∧
    februaryCron.Month = some [2] ∧
    februaryCron.Matches (Date 2021 3 5 0 1 0 0) = false := by
  refine ⟨by decide, by decide, by decide, by decide, by decide⟩

set_option maxRecDepth 100000 in
/-- At 2023-12-31T13:00:00Z the expression `0 0,13 * * 0` steps back to midnight
of the same day, and from there forward to 13:00. -/
theorem sundayTwice_next_steps :
    sundayTwiceCron.next (Date 2023 12 31 13 0 0 0) = .ok (Date 2023 12 31 0 0 0 0) ∧
    sundayTwiceCron.next (Date 2023 12 31 0 0 0 0) = .ok (Date 2023 12 31 13 0 0 0) := by
  refine ⟨by decide, by decide⟩

set_option maxRecDepth 100000 in
/-- C3: `0 0,13 * * 0` parses, and `nextFor` from 2023-12-31T13:00:00Z with a zero
duration returns (for every fuel of two or more iterations) the one-element
sequence `[2023-12-31T00:00:00Z]`, whose element is neither after `start` nor
inside the empty window `(start, start+d)`. -/
theorem nextFor_returns_instant_before_start :
    ParseCron "0 0,13 * * 0" = .ok sundayTwiceCron ∧
    (∀ fuel : Nat, sundayTwiceCron.nextFor (fuel + 2) (Date 2023 12 31 13 0 0 0) 0
      = some (.ok [Date 2023 12 31 0 0 0 0])) ∧
    (Date 2023 12 31 0 0 0 0).After (Date 2023 12 31 13 0 0 0) = false := by
  refine ⟨by decide, ?_, by decide⟩
  intro fuel
  have hb1 : (Date 2023 12 31 0 0 0 0).Before ((Date 2023 12 31 13 0 0 0).UTC.Add 0)
      = true := by decide
  have hb2 : (Date 2023 12 31 13 0 0 0).Before ((Date 2023 12 31 13 0 0 0).UTC.Add 0)
      = false := by decide
  unfold Cron.nextFor
  rw [sundayTwice_next_steps.1]
  show nextForLoop _ _ (fuel + 1 + 1) _ _ = _
  unfold nextForLoop
  rw [if_pos hb1, sundayTwice_next_steps.2]
  show nextForLoop _ _ (fuel + 1) _ _ = _
  unfold nextForLoop
  simp [hb2]

set_option maxRecDepth 100000 in
/-- At 02:29 on 2023-12-31 the Sunday expression moves to 02:30, and at 02:30 it
stays there. -/
theorem sunday_next_steps :
    sundayCron.next (Date 2023 12 31 2 29 0 0) = .ok (Date 2023 12 31 2 30 0 0) ∧
    sundayCron.next (Date 2023 12 31 2 30 0 0) = .ok (Date 2023 12 31 2 30 0 0) := by
  refine ⟨by decide, by decide⟩

/-- Once the loop variable of `nextFor` is the fixed point 2023-12-31T02:30:00Z,
no number of iterations ends the loop. -/
theorem nextForLoop_sunday_never_ends (fuel : Nat) (times : List Time) :
    nextForLoop sundayCron ((Date 2023 12 31 2 29 0 0).UTC.Add (3 * minuteDuration))
      fuel (Date 2023 12 31 2 30 0 0) times = none := by
  induction fuel generalizing times with
  | zero => rfl
  | succ n ih =>
    have hb : (Date 2023 12 31 2 30 0 0).Before
        ((Date 2023 12 31 2 29 0 0).UTC.Add (3 * minuteDuration)) = true := by decide
    unfold nextForLoop
    rw [if_pos hb, sunday_next_steps.2]
    exact ih _

set_option maxRecDepth 100000 in
/-- C4: for `30 2 * * 0`, start 2023-12-31T02:29:00Z and a window of three minutes
(the look-ahead of the scheduler), the loop of `nextFor` does not terminate: no
amount of fuel produces a result. -/
theorem nextFor_does_not_terminate :
    ParseCron "30 2 * * 0" = .ok sundayCron ∧
    ∀ fuel : Nat,
      sundayCron.nextFor fuel (Date 2023 12 31 2 29 0 0) (3 * minuteDuration) = none := by
  refine ⟨by decide, ?_⟩
  intro fuel
  unfold Cron.nextFor
  rw [sunday_next_steps.1]
  exact nextForLoop_sunday_never_ends fuel []

set_option maxRecDepth 100000 in
/-- C5: for `30 2 * * 0` and the reference 2024-03-31T02:30:00Z (a Sunday), `next`
returns 2025-03-31T02:30:00Z, although the whole-minute instant
2024-04-07T02:30:00Z matches the expression and lies strictly between the two:
occurrences are skipped. -/
theorem next_skips_matching_instant :
    ParseCron "30 2 * * 0" = .ok sundayCron ∧
    sundayCron.next (Date 2024 3 31 2 30 0 0) = .ok (Date 2025 3 31 2 30 0 0) ∧
    sundayCron.Matches (Date 2024 4 7 2 30 0 0) = true ∧
    (Date 2024 4 7 2 30 0 0).wholeMinute = true ∧
    (Date 2024 4 7 2 30 0 0).After (Date 2024 3 31 2 30 0 0) = true ∧
    (Date 2024 4 7 2 30 0 0).Before (Date 2025 3 31 2 30 0 0) = true := by
  refine ⟨by decide, by decide, by decide, by decide, by decide, by decide⟩

/-! ## Theorems: parsing a schedule -/

/-- Every field found by the scanning loop of `strings.Fields` is non-empty and
free of white space. -/
theorem fieldsLoop_fields (l : List Char) :
    ∀ cur : List Char, (∀ c ∈ cur, isSpace c = false) →
      ∀ f ∈ fieldsLoop l cur, f ≠ [] ∧ ∀ c ∈ f, isSpace c = false := by
  induction l with
  | nil =>
    intro cur hcur f hf
    unfold fieldsLoop at hf
    by_cases hc : cur = []
    · rw [if_pos hc] at hf
      cases hf
    · rw [if_neg hc] at hf
      rw [List.mem_singleton.mp hf]
      exact ⟨hc, hcur⟩
  | cons c rest ih =>
    intro cur hcur f hf
    unfold fieldsLoop at hf
    by_cases hsp : isSpace c = true
    · rw [if_pos hsp] at hf
      by_cases hc : cur = []
      · rw [if_pos hc] at hf
        exact ih [] (by simp) f hf
      · rw [if_neg hc] at hf
        rcases List.mem_cons.mp hf with rfl | hf
        · exact ⟨hc, hcur⟩
        · exact ih [] (by simp) f hf
    · rw [if_neg hsp] at hf
      refine ih (cur ++ [c]) ?_ f hf
      intro d hd
      rcases List.mem_append.mp hd with hd | hd
      · exact hcur d hd
      · rw [List.mem_singleton.mp hd]
        simpa using hsp

/-- Every field of `strings.Fields` is a non-empty text without white space. -/
theorem fields_no_space (s f : String) (hf : f ∈ Fields s) :
    f ≠ "" ∧ ∀ c ∈ f.toList, isSpace c = false := by
  unfold Fields at hf
  obtain ⟨l, hl, rfl⟩ := List.mem_map.mp hf
  have h := fieldsLoop_fields s.toList [] (by simp) l hl
  refine ⟨?_, h.2⟩
  intro hx
  exact h.1 (congrArg String.toList hx)

/-- C6: `ParseCron` fails when the input does not split into exactly 5
whitespace-separated fields, with the message
`given <k> but need 5 fields for valid cron config: <input>` where `k` is the
number of fields; when it splits into exactly 5 fields the result is that of
`NewCron` on those fields. -/
theorem parseCron_field_count (cronConfig : String) :
    ((Fields cronConfig).length ≠ 5 →
      ParseCron cronConfig
        = .error (errFieldCount (Fields cronConfig).length cronConfig) ∧
      ∀ quote : String → String,
        (errFieldCount (Fields cronConfig).length cronConfig).Error quote
          = "given " ++ toString (Fields cronConfig).length
            ++ " but need 5 fields for valid cron config: " ++ cronConfig) ∧
    ((Fields cronConfig).length = 5 →
      ∃ f0 f1 f2 f3 f4, Fields cronConfig = [f0, f1, f2, f3, f4] ∧
        ParseCron cronConfig = NewCron f0 f1 f2 f3 f4) := by
  unfold ParseCron
  generalize Fields cronConfig = fs
  constructor
  · intro hlen
    refine ⟨?_, fun _ => rfl⟩
    rcases fs with _ | ⟨f0, _ | ⟨f1, _ | ⟨f2, _ | ⟨f3, _ | ⟨f4, _ | ⟨f5, r⟩⟩⟩⟩⟩⟩ <;>
      first
        | rfl
        | exact absurd rfl hlen
  · intro hlen
    rcases fs with _ | ⟨f0, _ | ⟨f1, _ | ⟨f2, _ | ⟨f3, _ | ⟨f4, _ | ⟨f5, r⟩⟩⟩⟩⟩⟩ <;>
      simp at hlen
    exact ⟨f0, f1, f2, f3, f4, rfl, rfl⟩

set_option maxRecDepth 100000 in
/-- C6 at `0 0 2 *` (four fields, rejected) and at `0 0 2 * *` (five fields). -/
theorem parseCron_field_count_witness :
    ((Fields "0 0 2 *").length ≠ 5 ∧
      ParseCron "0 0 2 *"
        = .error (.plain "given 4 but need 5 fields for valid cron config: 0 0 2 *")) ∧
    ((Fields "0 0 2 * *").length = 5 ∧
      ∃ f0 f1 f2 f3 f4, Fields "0 0 2 * *" = [f0, f1, f2, f3, f4] ∧
        ParseCron "0 0 2 * *" = NewCron f0 f1 f2 f3 f4) :=
  ⟨⟨by decide, ((parseCron_field_count "0 0 2 *").1 (by decide)).1⟩,
   ⟨by decide, (parseCron_field_count "0 0 2 * *").2 (by decide)⟩⟩

/-- A schedule that parses has exactly five fields, on which `NewCron` succeeds. -/
theorem parseCron_ok_fields (cronConfig : String) (c : Cron)
    (h : ParseCron cronConfig = .ok c) :
    ∃ f0 f1 f2 f3 f4, Fields cronConfig = [f0, f1, f2, f3, f4] ∧
      NewCron f0 f1 f2 f3 f4 = .ok c := by
  unfold ParseCron at h
  generalize Fields cronConfig = fs at h
  rcases fs with _ | ⟨f0, _ | ⟨f1, _ | ⟨f2, _ | ⟨f3, _ | ⟨f4, _ | ⟨f5, r⟩⟩⟩⟩⟩⟩ <;>
    simp at h
  exact ⟨f0, f1, f2, f3, f4, rfl, h⟩

/-- When `NewCron` succeeds all five fields parsed, and the result is assembled
from the five parsed sets by the dual-day rule. -/
theorem newCron_ok (mi ho dm mo dw : String) (c : Cron)
    (h : NewCron mi ho dm mo dw = .ok c) :
    ∃ m hh d mth w, parseField mi 0 59 = .ok m ∧ parseField ho 0 23 = .ok hh ∧
      parseField dm 1 31 = .ok d ∧ parseField mo 1 12 = .ok mth ∧
      parseField dw 0 6 = .ok w ∧
      c = (if dm = "*" ∧ dw ≠ "*" then ⟨some m, some hh, none, some mth, some w⟩
           else if dm ≠ "*" ∧ dw = "*" then ⟨some m, some hh, some d, some mth, none⟩
           else ⟨some m, some hh, some d, some mth, some w⟩) := by
  unfold NewCron at h
  cases h1 : parseField mi 0 59 <;> rw [h1] at h <;> simp at h
  cases h2 : parseField ho 0 23 <;> rw [h2] at h <;> simp at h
  cases h3 : parseField dm 1 31 <;> rw [h3] at h <;> simp at h
  cases h4 : parseField mo 1 12 <;> rw [h4] at h <;> simp at h
  cases h5 : parseField dw 0 6 <;> rw [h5] at h <;> simp at h
  refine ⟨_, _, _, _, _, rfl, rfl, rfl, rfl, rfl, ?_⟩
  split_ifs at h ⊢ <;> simp_all

set_option maxRecDepth 100000 in
/-- C7 (dual-day rule): for every schedule that parses, with day-of-month field
`dm` and day-of-week field `dw`: if `dm` is `*` and `dw` is not, DayOfMonth is nil
and DayOfWeek is the parsed set; if `dw` is `*` and `dm` is not, DayOfWeek is nil
and DayOfMonth is the parsed set; if both or neither are `*`, both are the parsed
sets. `0 1 * * 1` gives DayOfMonth nil and DayOfWeek `[1]`; `0 1 1 * *` gives
DayOfMonth `[1]` and DayOfWeek nil. -/
theorem dual_day_rule :
    (∀ (cronConfig : String) (c : Cron), ParseCron cronConfig = .ok c →
      ∃ mi ho dm mo dw dmSet dwSet, Fields cronConfig = [mi, ho, dm, mo, dw] ∧
        parseField dm 1 31 = .ok dmSet ∧ parseField dw 0 6 = .ok dwSet ∧
        (dm = "*" ∧ dw ≠ "*" → c.DayOfMonth = none ∧ c.DayOfWeek = some dwSet) ∧
        (dw = "*" ∧ dm ≠ "*" → c.DayOfWeek = none ∧ c.DayOfMonth = some dmSet) ∧
        ((dm = "*" ↔ dw = "*") →
          c.DayOfMonth = some dmSet ∧ c.DayOfWeek = some dwSet)) ∧
    (∃ c, ParseCron "0 1 * * 1" = .ok c ∧ c.DayOfMonth = none ∧
      c.DayOfWeek = some [1]) ∧
    (∃ c, ParseCron "0 1 1 * *" = .ok c ∧ c.DayOfMonth = some [1] ∧
      c.DayOfWeek = none) := by
  refine ⟨?_, ⟨mondayCron, by decide, rfl, rfl⟩, ⟨firstOfMonthCron, by decide, rfl, rfl⟩⟩
  intro cronConfig c h
  obtain ⟨mi, ho, dm, mo, dw, hf, hn⟩ := parseCron_ok_fields cronConfig c h
  obtain ⟨m, hh, d, mth, w, -, -, h3, -, h5, hc⟩ := newCron_ok mi ho dm mo dw c hn
  refine ⟨mi, ho, dm, mo, dw, d, w, hf, h3, h5, ?_, ?_, ?_⟩
  · intro hw
    rw [hc, if_pos hw]
    exact ⟨rfl, rfl⟩
  · rintro ⟨hw, hd⟩
    rw [hc, if_neg (fun h => hd h.1), if_pos ⟨hd, hw⟩]
    exact ⟨rfl, rfl⟩
  · intro hiff
    have h1 : ¬ (dm = "*" ∧ dw ≠ "*") := fun hx => hx.2 (hiff.1 hx.1)
    have h2 : ¬ (dm ≠ "*" ∧ dw = "*") := fun hx => hx.1 (hiff.2 hx.2)
    rw [hc, if_neg h1, if_neg h2]
    exact ⟨rfl, rfl⟩

set_option maxRecDepth 100000 in
/-- C7 at the schedule `0 1 * * 1`: the day-of-month field is the wildcard and the
day-of-week field is `1`. -/
theorem dual_day_rule_witness :
    ParseCron "0 1 * * 1" = .ok mondayCron ∧
    ∃ mi ho dm mo dw dmSet dwSet, Fields "0 1 * * 1" = [mi, ho, dm, mo, dw] ∧
      parseField dm 1 31 = .ok dmSet ∧ parseField dw 0 6 = .ok dwSet ∧
      (dm = "*" ∧ dw ≠ "*" →
        mondayCron.DayOfMonth = none ∧ mondayCron.DayOfWeek = some dwSet) ∧
      (dw = "*" ∧ dm ≠ "*" →
        mondayCron.DayOfWeek = none ∧ mondayCron.DayOfMonth = some dmSet) ∧
      ((dm = "*" ↔ dw = "*") →
        mondayCron.DayOfMonth = some dmSet ∧ mondayCron.DayOfWeek = some dwSet) :=
  ⟨by decide, dual_day_rule.1 "0 1 * * 1" mondayCron (by decide)⟩

set_option maxRecDepth 100000 in
/-- C8: the schedule `1/9223372036854775807 * * * *` parses, and its Minute field is
`[-9223372036854775808, -1, 1]`: two of its values lie outside the domain 0..59, so
the field invariant fails for the parsed expression. -/
theorem parseCron_minute_outside_domain :
    ParseCron "1/9223372036854775807 * * * *" = .ok overflowCron ∧
    overflowCron.Minute = some [-9223372036854775808, -1, 1] ∧
    ¬ fieldInvariant 0 59 overflowCron.Minute ∧
    ¬ overflowCron.Valid := by
  have hinv : ¬ fieldInvariant 0 59 overflowCron.Minute := by
    intro h
    have h1 := ((h _ rfl).2.2 (-1) (by simp)).1
    omega
  exact ⟨by decide, rfl, hinv, fun h => hinv h.1⟩

/-! ## Theorems: fields -/

/-- A wrapped value is an `int`. -/
theorem wrap64_inInt64 (x : Int) : inInt64 (wrap64 x) := by
  unfold inInt64 wrap64 minInt64 maxInt64
  omega

/-- Wrapping leaves an `int` unchanged. -/
theorem wrap64_eq_self (x : Int) (h : inInt64 x) : wrap64 x = x := by
  unfold inInt64 minInt64 maxInt64 at h
  unfold wrap64
  omega

/-- With an upper bound that no `int` exceeds, the loop of `sliceWithStep` never
ends. -/
theorem sliceWithStepLoop_diverge (maxValue step : Int) (hmax : maxInt64 ≤ maxValue)
    (fuel : Nat) : ∀ (i : Int) (numbers : List Int), inInt64 i →
      sliceWithStepLoop maxValue step fuel i numbers = .diverge := by
  induction fuel with
  | zero => intro i numbers _; rfl
  | succ n ih =>
    intro i numbers hi
    unfold sliceWithStepLoop
    have hle : i ≤ maxValue := le_trans hi.2 hmax
    rw [if_pos hle]
    exact ih _ _ (wrap64_inInt64 _)

/-- With step 1 and a counter in the `int` range, a loop that ends has appended a
strictly increasing run of values, none below the counter. -/
theorem sliceWithStepLoop_one_sorted (maxValue : Int) (fuel : Nat) :
    ∀ (i : Int) (numbers r : List Int), inInt64 i →
      sliceWithStepLoop maxValue 1 fuel i numbers = .ok r →
      ∃ l, r = numbers ++ l ∧ l.Sorted (· < ·) ∧ ∀ x ∈ l, i ≤ x := by
  induction fuel with
  | zero => intro i numbers r _ h; simp [sliceWithStepLoop] at h
  | succ n ih =>
    intro i numbers r hi h
    unfold sliceWithStepLoop at h
    by_cases hle : i ≤ maxValue
    · rw [if_pos hle] at h
      by_cases hmax : maxInt64 ≤ maxValue
      · rw [sliceWithStepLoop_diverge maxValue 1 hmax n _ _ (wrap64_inInt64 _)] at h
        cases h
      · have hin : inInt64 (i + 1) := by
          unfold inInt64 minInt64 maxInt64 at *
          omega
        rw [wrap64_eq_self _ hin] at h
        obtain ⟨l, hl, hs, hge⟩ := ih (i + 1) (numbers ++ [i]) r hin h
        refine ⟨i :: l, by simp [hl], ?_, ?_⟩
        · refine List.sorted_cons.mpr ⟨?_, hs⟩
          intro b hb
          have := hge b hb
          omega
        · intro x hx
          rcases List.mem_cons.mp hx with rfl | hx
          · exact le_refl _
          · have := hge x hx
            omega
    · rw [if_neg hle] at h
      cases h
      exact ⟨[], by simp, List.sorted_nil, by simp⟩

/-- With step 1, whatever `sliceWithStep` returns is strictly increasing. -/
theorem sliceWithStep_one_sorted (minValue maxValue : Int) (r : List Int)
    (h : sliceWithStep minValue maxValue 1 = .ok r) : r.Sorted (· < ·) := by
  unfold sliceWithStep at h
  split_ifs at h
  revert h
  show sliceWithStepLoop maxValue 1 (18446744073709551615 + 1) minValue [] = .ok r → _
  intro h
  unfold sliceWithStepLoop at h
  by_cases hle : minValue ≤ maxValue
  · rw [if_pos hle] at h
    obtain ⟨l, hl, hs, hge⟩ :=
      sliceWithStepLoop_one_sorted maxValue _ _ _ r (wrap64_inInt64 _) h
    by_cases hmax : maxInt64 ≤ maxValue
    · rw [sliceWithStepLoop_diverge maxValue 1 hmax _ _ _ (wrap64_inInt64 _)] at h
      cases h
    · rw [hl]
      refine List.sorted_cons.mpr ⟨?_, hs⟩
      intro b hb
      have h1 := hge b hb
      have h2 : minValue < wrap64 (minValue + 1) := by
        unfold wrap64
        unfold maxInt64 at hmax
        omega
      omega
  · rw [if_neg hle] at h
    cases h
    exact List.sorted_nil

/-- `sortUnique` keeps exactly the values of its input. -/
theorem mem_sortUnique (numbers : List Int) (v : Int) :
    v ∈ sortUnique numbers ↔ v ∈ numbers := by
  unfold sortUnique
  rw [List.mem_insertionSort, List.mem_dedup]

/-- The result of `sortUnique` is strictly increasing. -/
theorem sortUnique_sorted (numbers : List Int) : (sortUnique numbers).Sorted (· < ·) := by
  unfold sortUnique
  refine List.Sorted.lt_of_le (List.sorted_insertionSort _ _) ?_
  exact (List.perm_insertionSort _ _).nodup_iff.mpr (List.nodup_dedup _)

/-- When every item parses, the loop of `parseField` returns the accumulated
values followed by the values of the items. -/
theorem parseFieldLoop_ok (minValue maxValue : Int) (items : List String) :
    ∀ numbers : List Int,
      (∀ item ∈ items, ∃ r, parseNumber item minValue maxValue = .ok r) →
      ∃ out, parseFieldLoop minValue maxValue items numbers = .ok out ∧
        ∀ v, v ∈ out ↔ v ∈ numbers ∨
          ∃ item ∈ items, ∃ r, parseNumber item minValue maxValue = .ok r ∧ v ∈ r := by
  induction items with
  | nil => intro numbers _; exact ⟨numbers, rfl, by simp⟩
  | cons item rest ih =>
    intro numbers h
    obtain ⟨r, hr⟩ := h item (List.mem_cons_self _ _)
    obtain ⟨out, ho, hmem⟩ :=
      ih (numbers ++ r) (fun it hit => h it (List.mem_cons_of_mem _ hit))
    refine ⟨out, ?_, ?_⟩
    · unfold parseFieldLoop
      rw [hr]
      exact ho
    · intro v
      rw [hmem v, List.mem_append]
      constructor
      · rintro ((hv | hv) | ⟨it, hit, r1, hr1, hv⟩)
        · exact Or.inl hv
        · exact Or.inr ⟨item, List.mem_cons_self _ _, r, hr, hv⟩
        · exact Or.inr ⟨it, List.mem_cons_of_mem _ hit, r1, hr1, hv⟩
      · rintro (hv | ⟨it, hit, r1, hr1, hv⟩)
        · exact Or.inl (Or.inl hv)
        · rcases List.mem_cons.mp hit with rfl | hit
          · rw [hr] at hr1
            cases hr1
            exact Or.inl (Or.inr hv)
          · exact Or.inr ⟨it, hit, r1, hr1, hv⟩

/-- C9: for every field whose comma-separated items all parse, `parseField`
returns a strictly increasing list (sorted, free of duplicates) that holds a value
iff the value is in the result of some item. -/
theorem parseField_sorted_union (field : String) (minValue maxValue : Int)
    (h : ∀ item ∈ Split field ',', ∃ r, parseNumber item minValue maxValue = .ok r) :
    ∃ out, parseField field minValue maxValue = .ok out ∧ out.Sorted (· < ·) ∧
      ∀ v, v ∈ out ↔
        ∃ item ∈ Split field ',', ∃ r,
          parseNumber item minValue maxValue = .ok r ∧ v ∈ r := by
  by_cases hstar : field = "*"
  · subst hstar
    have hsplit : Split "*" ',' = ["*"] := by decide
    obtain ⟨r, hr⟩ := h "*" (by rw [hsplit]; exact List.mem_singleton_self _)
    have hr1 : sliceWithStep minValue maxValue 1 = .ok r := by
      simpa [parseNumber] using hr
    refine ⟨r, by simp [parseField, hr1], sliceWithStep_one_sorted _ _ _ hr1, ?_⟩
    intro v
    rw [hsplit]
    constructor
    · intro hv
      exact ⟨"*", List.mem_singleton_self _, r, hr, hv⟩
    · rintro ⟨it, hit, r1, hr1, hv⟩
      rw [List.mem_singleton.mp hit, hr] at hr1
      cases hr1
      exact hv
  · obtain ⟨nums, hn, hmem⟩ := parseFieldLoop_ok minValue maxValue _ [] h
    refine ⟨sortUnique nums, ?_, sortUnique_sorted _, ?_⟩
    · unfold parseField
      rw [if_neg hstar, hn]
    · intro v
      rw [mem_sortUnique, hmem v]
      simp

set_option maxRecDepth 100000 in
/-- C9 at the field `3,1-3,0/30` over the minute domain. -/
theorem parseField_sorted_union_witness :
    (∀ item ∈ Split "3,1-3,0/30" ',', ∃ r, parseNumber item 0 59 = .ok r) ∧
    ∃ out, parseField "3,1-3,0/30" 0 59 = .ok out ∧ out.Sorted (· < ·) ∧
      ∀ v, v ∈ out ↔
        ∃ item ∈ Split "3,1-3,0/30" ',', ∃ r, parseNumber item 0 59 = .ok r ∧ v ∈ r := by
  have hyp : ∀ item ∈ Split "3,1-3,0/30" ',', ∃ r, parseNumber item 0 59 = .ok r := by
    have hs : Split "3,1-3,0/30" ',' = ["3", "1-3", "0/30"] := by decide
    rw [hs]
    intro item hit
    simp only [List.mem_cons, List.mem_singleton, List.not_mem_nil, or_false] at hit
    rcases hit with rfl | rfl | rfl
    · exact ⟨[3], by decide⟩
    · exact ⟨[1, 2, 3], by decide⟩
    · exact ⟨[0, 30], by decide⟩
  exact ⟨hyp, parseField_sorted_union "3,1-3,0/30" 0 59 hyp⟩

/-! ## Theorems: the item `*/n` -/

/-- `strconv.Atoi` returns a value or its own error. -/
theorem atoi_cases (s : String) :
    (∃ v, Atoi s = .ok v) ∨ (∃ k, Atoi s = .error (.atoi s k)) := by
  unfold Atoi
  cases parseInt s.toList with
  | ok v => exact Or.inl ⟨v, rfl⟩
  | error k => exact Or.inr ⟨k, rfl⟩

/-- A text accepted by the digit loop consists of decimal digits. -/
theorem parseUintLoop_digits (l : List Char) :
    ∀ (n m : Nat), parseUintLoop l n = .ok m →
      ∀ c ∈ l, 48 ≤ c.toNat ∧ c.toNat ≤ 57 := by
  induction l with
  | nil => intro n m _ c hc; cases hc
  | cons d rest ih =>
    intro n m h c hc
    unfold parseUintLoop at h
    by_cases hd : 48 ≤ d.toNat ∧ d.toNat ≤ 57
    · rw [if_pos hd] at h
      rcases List.mem_cons.mp hc with rfl | hc
      · exact hd
      · split_ifs at h
        simp only at h
        split_ifs at h
        exact ih _ _ h c hc
    · rw [if_neg hd] at h
      cases h

/-- A text accepted as an integer contains no `/`. -/
theorem parseInt_no_slash (l : List Char) (v : Int) (h : parseInt l = .ok v) :
    '/' ∉ l := by
  unfold parseInt at h
  cases l with
  | nil => cases h
  | cons c rest =>
    simp only at h
    intro hmem
    by_cases hsign : c = '+' ∨ c = '-'
    · rw [if_pos hsign] at h
      cases rest with
      | nil => cases h
      | cons d rest1 =>
        simp only at h
        cases hp : parseUintLoop (d :: rest1) 0 with
        | error k => rw [hp] at h; cases h
        | ok un =>
          rcases List.mem_cons.mp hmem with hc | hc
          · rcases hsign with rfl | rfl
            · exact absurd hc (by decide)
            · exact absurd hc (by decide)
          · have := parseUintLoop_digits _ _ _ hp _ hc
            exact absurd this (by decide)
    · rw [if_neg hsign] at h
      simp only at h
      cases hp : parseUintLoop (c :: rest) 0 with
      | error k => rw [hp] at h; cases h
      | ok un =>
        have := parseUintLoop_digits _ _ _ hp _ hmem
        exact absurd this (by decide)

/-- Splitting a text without the separator yields the text itself. -/
theorem splitLoop_not_mem (sep : Char) (l : List Char) :
    ∀ cur : List Char, sep ∉ l → splitLoop sep l cur = [cur ++ l] := by
  induction l with
  | nil => intro cur _; simp [splitLoop]
  | cons c rest ih =>
    intro cur h
    have hc : c ≠ sep := fun hx => h (hx ▸ List.mem_cons_self _ _)
    have hr : sep ∉ rest := fun hx => h (List.mem_cons_of_mem _ hx)
    unfold splitLoop
    rw [if_neg hc, ih _ hr]
    simp

/-- A text accepted by `Atoi` is a single part with respect to `/`. -/
theorem split_of_atoi_ok (s : String) (v : Int) (h : Atoi s = .ok v) :
    Split s '/' = [s] := by
  have hp : ∃ w, parseInt s.toList = .ok w := by
    unfold Atoi at h
    cases hq : parseInt s.toList with
    | ok w => exact ⟨w, rfl⟩
    | error k => rw [hq] at h; cases h
  obtain ⟨w, hw⟩ := hp
  unfold Split
  rw [splitLoop_not_mem _ _ _ (parseInt_no_slash _ _ hw)]
  simp [String.toList]

/-- The parts of `*/n` are `*` followed by the parts of `n`. -/
theorem split_star_slash (n : String) :
    Split ("*/" ++ n) '/' = "*" :: Split n '/' := by
  unfold Split
  have : ("*/" ++ n).toList = '*' :: '/' :: n.toList := by
    simp [String.toList, String.data_append]
  rw [this]
  simp [splitLoop]

/-- An item `*/n` is not the wildcard `*`. -/
theorem star_slash_ne_star (n : String) : "*/" ++ n ≠ "*" := by
  intro h
  have := congrArg String.length h
  simp [String.length_append] at this
  have h2 : "*/".length = 2 := by decide
  have h1 : "*".length = 1 := by decide
  omega

/-- An item `*/n` contains `/`. -/
theorem contains_star_slash (n : String) : Contains ("*/" ++ n) '/' = true := by
  unfold Contains
  simp [String.toList, String.data_append]

/-- `parseSlash` on an item `*/n` always returns an error. -/
theorem parseSlash_star_fails (n : String) (minValue maxValue : Int) :
    ∃ e, parseSlash ("*/" ++ n) minValue maxValue = .error e := by
  unfold parseSlash
  rw [split_star_slash]
  have hstar : Atoi "*" = .error (.atoi "*" .invalidSyntax) := by decide
  have hc : Contains "*" '-' = false := by decide
  rcases hs : Split n '/' with _ | ⟨p1, _ | ⟨p2, rest⟩⟩
  · exact ⟨_, rfl⟩
  · simp only
    rcases atoi_cases p1 with ⟨v, hv⟩ | ⟨k, hk⟩
    · rw [hv]
      simp only [hc, hstar]
      split_ifs <;> exact ⟨_, rfl⟩
    · rw [hk]
      exact ⟨_, rfl⟩
  · exact ⟨_, rfl⟩

/-- C10, amended: for every domain and every step text `n`, parsing the item
`*/n` fails; when `n` is a number of at least 1 the error of `parseSlash` is that
of reading the start `*` as a number, wrapped by `parseNumber`. Only the item `*`
alone is the wildcard. -/
theorem parseNumber_star_step_fails (n : String) (minValue maxValue : Int) :
    (∃ e, parseNumber ("*/" ++ n) minValue maxValue = .error e) ∧
    (∀ step : Int, Atoi n = .ok step → 1 ≤ step →
      parseSlash ("*/" ++ n) minValue maxValue
        = .error (.wrap "failed to parse number" (.atoi "*" .invalidSyntax)) ∧
      parseNumber ("*/" ++ n) minValue maxValue
        = .error (.wrapQ "failed to parse slash" ("*/" ++ n)
            (.wrap "failed to parse number" (.atoi "*" .invalidSyntax)))) := by
  have hnum : ∀ e, parseSlash ("*/" ++ n) minValue maxValue = .error e →
      parseNumber ("*/" ++ n) minValue maxValue
        = .error (.wrapQ "failed to parse slash" ("*/" ++ n) e) := by
    intro e he
    unfold parseNumber
    rw [if_neg (star_slash_ne_star n), if_pos (contains_star_slash n), he]
  constructor
  · obtain ⟨e, he⟩ := parseSlash_star_fails n minValue maxValue
    exact ⟨_, hnum e he⟩
  · intro step hstep hpos
    have hs : parseSlash ("*/" ++ n) minValue maxValue
        = .error (.wrap "failed to parse number" (.atoi "*" .invalidSyntax)) := by
      have hstar : Atoi "*" = .error (.atoi "*" .invalidSyntax) := by decide
      have hc : Contains "*" '-' = false := by decide
      unfold parseSlash
      rw [split_star_slash, split_of_atoi_ok n step hstep]
      simp only [hstep, hc, hstar]
      rw [if_neg (by omega)]
      simp
    exact ⟨hs, hnum _ hs⟩

set_option maxRecDepth 100000 in
/-- C10, amended, at the item `*/6` over the domain 0..45. -/
theorem parseNumber_star_step_fails_witness :
    Atoi "6" = .ok 6 ∧
    parseSlash "*/6" 0 45
      = .error (.wrap "failed to parse number" (.atoi "*" .invalidSyntax)) ∧
    parseNumber "*/6" 0 45
      = .error (.wrapQ "failed to parse slash" "*/6"
          (.wrap "failed to parse number" (.atoi "*" .invalidSyntax))) :=
  ⟨by decide,
   ((parseNumber_star_step_fails "6" 0 45).2 6 (by decide) (by decide)).1,
   ((parseNumber_star_step_fails "6" 0 45).2 6 (by decide) (by decide)).2⟩

set_option maxRecDepth 100000 in
/-- C10 as stated fails: over the domain 0..45 the item `*/6` is rejected while
`0/6` (the item `min/n`) yields 0, 6, ..., 42. -/
theorem star_step_differs_from_min_step :
    parseNumber "*/6" 0 45
      = .error (.wrapQ "failed to parse slash" "*/6"
          (.wrap "failed to parse number" (.atoi "*" .invalidSyntax))) ∧
    parseNumber "0/6" 0 45 = .ok [0, 6, 12, 18, 24, 30, 36, 42] ∧
    parseNumber "*/6" 0 45 ≠ parseNumber "0/6" 0 45 := by
  refine ⟨by decide, by decide, by decide⟩

/-! ## Theorems: decimal numerals -/

/-- The character of a decimal digit has the code of `0` plus the digit. -/
theorem digitChar_toNat (d : Nat) (h : d < 10) : (Nat.digitChar d).toNat = 48 + d := by
  interval_cases d <;> rfl

/-- The digits that `Nat.toDigitsCore` puts in front of `ds` are decimal digits
whose value, read from the left, is `n`. -/
theorem toDigitsCore_spec (fuel : Nat) :
    ∀ (n : Nat) (ds : List Char), n < fuel →
      ∃ l, Nat.toDigitsCore 10 fuel n ds = l ++ ds ∧ l ≠ [] ∧
        (∀ c ∈ l, 48 ≤ c.toNat ∧ c.toNat ≤ 57) ∧
        l.foldl (fun acc c => acc * 10 + (c.toNat - 48)) 0 = n := by
  induction fuel with
  | zero => intro n ds h; omega
  | succ k ih =>
    intro n ds h
    have hd : (Nat.digitChar (n % 10)).toNat = 48 + n % 10 :=
      digitChar_toNat _ (Nat.mod_lt _ (by decide))
    unfold Nat.toDigitsCore
    by_cases h0 : n / 10 = 0
    · simp only [h0, if_true]
      refine ⟨[Nat.digitChar (n % 10)], rfl, by simp, ?_, ?_⟩
      · intro c hc
        rw [List.mem_singleton.mp hc, hd]
        omega
      · simp only [List.foldl, hd]
        omega
    · simp only [h0, if_false]
      obtain ⟨l, hl, hne, hdig, hval⟩ :=
        ih (n / 10) (Nat.digitChar (n % 10) :: ds) (by omega)
      refine ⟨l ++ [Nat.digitChar (n % 10)], by simp [hl], by simp, ?_, ?_⟩
      · intro c hc
        rcases List.mem_append.mp hc with hc | hc
        · exact hdig c hc
        · rw [List.mem_singleton.mp hc, hd]
          omega
      · rw [List.foldl_append, hval]
        simp only [List.foldl, hd]
        omega

/-- The decimal text of a natural number: non-empty, made of digits, with the
number as its value. -/
theorem repr_digits (n : Nat) :
    (Nat.repr n).toList ≠ [] ∧
    (∀ c ∈ (Nat.repr n).toList, 48 ≤ c.toNat ∧ c.toNat ≤ 57) ∧
    (Nat.repr n).toList.foldl (fun acc c => acc * 10 + (c.toNat - 48)) 0 = n := by
  obtain ⟨l, hl, hne, hdig, hval⟩ := toDigitsCore_spec (n + 1) n [] (by omega)
  have h : (Nat.repr n).toList = l := by
    show Nat.toDigits 10 n = l
    unfold Nat.toDigits
    rw [hl, List.append_nil]
  rw [h]
  exact ⟨hne, hdig, hval⟩

/-- Reading further digits never lowers the value. -/
theorem foldl_digits_ge (l : List Char) :
    ∀ acc : Nat, acc ≤ l.foldl (fun acc c => acc * 10 + (c.toNat - 48)) acc := by
  induction l with
  | nil => intro acc; exact le_refl _
  | cons c rest ih =>
    intro acc
    simp only [List.foldl]
    have := ih (acc * 10 + (c.toNat - 48))
    omega

/-- On a text of decimal digits the loop of `strconv.ParseUint` returns the value
of the text when it fits in 64 bits, and a range error otherwise. -/
theorem parseUintLoop_of_digits (l : List Char) :
    ∀ acc : Nat, acc ≤ 18446744073709551615 →
      (∀ c ∈ l, 48 ≤ c.toNat ∧ c.toNat ≤ 57) →
      parseUintLoop l acc =
        (if l.foldl (fun acc c => acc * 10 + (c.toNat - 48)) acc ≤ 18446744073709551615
          then .ok (l.foldl (fun acc c => acc * 10 + (c.toNat - 48)) acc)
          else .error .outOfRange) := by
  induction l with
  | nil =>
    intro acc hacc _
    unfold parseUintLoop
    show _ = if acc ≤ 18446744073709551615 then Except.ok acc else _
    rw [if_pos hacc]
  | cons c rest ih =>
    intro acc _ h
    have hc := h c (List.mem_cons_self _ _)
    have hrest : ∀ d ∈ rest, 48 ≤ d.toNat ∧ d.toNat ≤ 57 :=
      fun d hd => h d (List.mem_cons_of_mem _ hd)
    have hge := foldl_digits_ge rest (acc * 10 + (c.toNat - 48))
    unfold parseUintLoop
    rw [if_pos hc]
    simp only [List.foldl]
    by_cases h1 : acc ≥ 1844674407370955162
    · rw [if_pos h1, if_neg (by omega)]
    · rw [if_neg h1]
      by_cases h2 : acc * 10 + (c.toNat - 48) > 18446744073709551615
      · rw [if_pos h2, if_neg (by omega)]
      · rw [if_neg h2]
        exact ih _ (by omega) hrest


/-- `strconv.Atoi` reads the decimal text of a natural number back when the
number is an `int`, and reports a range error when it is not. -/
theorem atoi_repr (n : Nat) :
    Atoi (Nat.repr n) =
      (if (n : Int) ≤ maxInt64 then .ok (n : Int)
       else .error (.atoi (Nat.repr n) .outOfRange)) := by
  obtain ⟨hne, hdig, hval⟩ := repr_digits n
  unfold Atoi parseInt
  cases hl : (Nat.repr n).toList with
  | nil => exact absurd hl hne
  | cons c rest =>
    rw [hl] at hdig hval
    have hc := hdig c (List.mem_cons_self _ _)
    have hplus : ¬ (c = '+' ∨ c = '-') := by
      rintro (rfl | rfl)
      · exact absurd hc (by decide)
      · exact absurd hc (by decide)
    have hminus : c ≠ '-' := fun h => hplus (Or.inr h)
    simp only [if_neg hplus]
    rw [parseUintLoop_of_digits (c :: rest) 0 (by omega) hdig, hval]
    unfold maxInt64
    by_cases h64 : n ≤ 18446744073709551615
    · rw [if_pos h64]
      simp only [hminus, decide_False, Bool.false_eq_true, not_false_eq_true, true_and,
        false_and, if_false]
      by_cases h63 : n ≥ 9223372036854775808
      · rw [if_pos h63, if_neg (by omega)]
      · rw [if_neg h63, if_pos (by omega)]
    · rw [if_neg h64, if_neg (by omega)]

/-- The decimal text of a natural number contains neither `-` nor `/`. -/
theorem repr_no_sep (n : Nat) :
    '-' ∉ (Nat.repr n).toList ∧ '/' ∉ (Nat.repr n).toList := by
  obtain ⟨_, hdig, _⟩ := repr_digits n
  constructor
  · intro h
    exact absurd (hdig _ h) (by decide)
  · intro h
    exact absurd (hdig _ h) (by decide)

/-! ## Theorems: ranges -/

/-- The integers from `i` to `b` start with `i` when `i ≤ b`. -/
theorem intsFromTo_cons (i b : Int) (h : i ≤ b) :
    intsFromTo i b = i :: intsFromTo (i + 1) b := by
  unfold intsFromTo
  have hcount : (b - i + 1).toNat = (b - (i + 1) + 1).toNat + 1 := by omega
  rw [hcount, List.range_succ_eq_map, List.map_cons, List.map_map]
  simp only [Nat.cast_zero, add_zero]
  congr 1
  apply List.map_congr_left
  intro k _
  simp only [Function.comp, Nat.succ_eq_add_one, Nat.cast_add, Nat.cast_one]
  omega

/-- There is no integer from `i` to `b` when `b < i`. -/
theorem intsFromTo_nil (i b : Int) (h : b < i) : intsFromTo i b = [] := by
  unfold intsFromTo
  have hcount : (b - i + 1).toNat = 0 := by omega
  rw [hcount]
  rfl

/-- With step 1, a counter that is an `int` and an upper bound below the largest
`int`, the loop of `sliceWithStep` appends the integers from the counter to the
bound, given fuel for them. -/
theorem sliceWithStepLoop_one (maxValue : Int) (hmax : maxValue < maxInt64) (fuel : Nat) :
    ∀ (i : Int) (numbers : List Int), minInt64 ≤ i →
      (maxValue - i + 1).toNat < fuel →
      sliceWithStepLoop maxValue 1 fuel i numbers = .ok (numbers ++ intsFromTo i maxValue) := by
  induction fuel with
  | zero => intro i numbers _ h; omega
  | succ n ih =>
    intro i numbers hi hfuel
    unfold sliceWithStepLoop
    by_cases hle : i ≤ maxValue
    · rw [if_pos hle]
      have hin : inInt64 (i + 1) := by
        unfold inInt64
        unfold minInt64 at *
        unfold maxInt64 at *
        omega
      rw [wrap64_eq_self _ hin, ih (i + 1) _ hin.1 (by omega), intsFromTo_cons i _ hle]
      simp
    · rw [if_neg hle, intsFromTo_nil _ _ (by omega)]
      simp

/-- With step 1 and bounds that are `int`s below the largest, `sliceWithStep`
returns the integers from `a` to `b`. -/
theorem sliceWithStep_one (a b : Int) (ha : minInt64 ≤ a) (hab : a ≤ b)
    (hb : b < maxInt64) (hlen : b - a < maxInt64) :
    sliceWithStep a b 1 = .ok (intsFromTo a b) := by
  have hcap : sliceCap a b 1 = b - a + 1 := by
    unfold sliceCap
    have h1 : wrap64 (b - a) = b - a := by
      apply wrap64_eq_self
      unfold inInt64 minInt64
      unfold maxInt64 at *
      omega
    rw [h1, Int.tdiv_one, h1]
    apply wrap64_eq_self
    unfold inInt64 minInt64
    unfold maxInt64 at *
    omega
  unfold sliceWithStep
  rw [if_neg (by decide), hcap, if_neg (by omega)]
  have := sliceWithStepLoop_one b hb 18446744073709551616 a [] ha (by
    unfold maxInt64 at *
    omega)
  simpa using this

/-- The parts found by the loop of `strings.Split` are never none. -/
theorem splitLoop_ne_nil (sep : Char) (l : List Char) :
    ∀ cur : List Char, splitLoop sep l cur ≠ [] := by
  induction l with
  | nil => intro cur; simp [splitLoop]
  | cons c rest ih =>
    intro cur
    unfold splitLoop
    by_cases h : c = sep
    · rw [if_pos h]
      exact List.cons_ne_nil _ _
    · rw [if_neg h]
      exact ih _

/-- Splitting at the first separator: the text before it is the first part. -/
theorem splitLoop_append_sep (sep : Char) (l1 l2 : List Char) :
    ∀ cur : List Char, sep ∉ l1 →
      splitLoop sep (l1 ++ sep :: l2) cur = (cur ++ l1) :: splitLoop sep l2 [] := by
  induction l1 with
  | nil =>
    intro cur _
    simp [splitLoop]
  | cons c rest ih =>
    intro cur h
    have hc : c ≠ sep := fun hx => h (hx ▸ List.mem_cons_self _ _)
    have hr : sep ∉ rest := fun hx => h (List.mem_cons_of_mem _ hx)
    simp only [List.cons_append, splitLoop, if_neg hc, List.append_eq]
    rw [ih _ hr]
    simp

/-- The two parts of `x` + separator + `y` when neither holds the separator. -/
theorem split_two (sep : Char) (x y : String) (hx : sep ∉ x.toList) (hy : sep ∉ y.toList) :
    Split (x ++ String.singleton sep ++ y) sep = [x, y] := by
  unfold Split
  have hl : (x ++ String.singleton sep ++ y).toList = x.toList ++ sep :: y.toList := by
    simp [String.toList, String.data_append, String.singleton]
  rw [hl, splitLoop_append_sep sep _ _ [] hx, splitLoop_not_mem sep _ [] hy]
  simp [String.toList]

/-- A value is among the integers from `a` to `b` iff it lies between them. -/
theorem mem_intsFromTo (a b v : Int) : v ∈ intsFromTo a b ↔ a ≤ v ∧ v ≤ b := by
  unfold intsFromTo
  simp only [List.mem_map, List.mem_range]
  constructor
  · rintro ⟨k, hk, rfl⟩
    omega
  · intro h
    exact ⟨(v - a).toNat, by omega, by omega⟩

/-- The integers from `a` to `b` are `b - a + 1` values when `a ≤ b`. -/
theorem length_intsFromTo (a b : Int) (h : a ≤ b) :
    ((intsFromTo a b).length : Int) = b - a + 1 := by
  unfold intsFromTo
  simp only [List.length_map, List.length_range]
  omega

/-- The integers from `a` to `b` are listed in strictly increasing order. -/
theorem intsFromTo_sorted (a b : Int) : (intsFromTo a b).Sorted (· < ·) := by
  unfold intsFromTo
  refine (List.pairwise_map).mpr ?_
  refine List.Pairwise.imp ?_ (List.pairwise_lt_range _)
  intro x y hxy
  show a + (x : Int) < a + (y : Int)
  omega

/-- Characters of the decimal text of an integer: no `/`. -/
theorem int_toString_no_slash (a : Int) : '/' ∉ (toString a).toList := by
  cases a with
  | ofNat n => exact (repr_no_sep n).2
  | negSucc n =>
    show '/' ∉ ("-" ++ Nat.repr (n + 1)).toList
    simp only [String.toList, String.data_append]
    intro h
    rcases List.mem_append.mp h with h | h
    · exact absurd h (by decide)
    · exact (repr_no_sep (n + 1)).2 h

/-- An item with a `-` and without `/` is handed by `parseNumber` to `parseRange`. -/
theorem parseNumber_of_dash (value : String) (minValue maxValue : Int)
    (h1 : '/' ∉ value.toList) (h2 : '-' ∈ value.toList) :
    parseNumber value minValue maxValue =
      (match parseRange value minValue maxValue with
       | .ok ret => .ok ret
       | .error e => .error (.wrapQ "failed to parse range" value e)
       | .panic => .panic
       | .diverge => .diverge) := by
  have hstar : value ≠ "*" := by
    intro h
    rw [h] at h2
    exact absurd h2 (by decide)
  have hs : Contains value '/' = false := by
    unfold Contains
    simpa using h1
  have hd : Contains value '-' = true := by
    unfold Contains
    simpa using h2
  unfold parseNumber
  rw [if_neg hstar, hs, hd]
  simp

/-- An item with three or more parts is rejected by `parseRange`. -/
theorem parseRange_three_parts (value : String) (minValue maxValue : Int)
    (p0 p1 p2 : String) (rest : List String)
    (h : Split value '-' = p0 :: p1 :: p2 :: rest) :
    parseRange value minValue maxValue = .error (errParts (rest.length + 3) value) := by
  unfold parseRange
  rw [h]
  rfl

/-- The text of a range whose start or end is negative has three or more parts. -/
theorem split_negative (a b : Int) (h : a < 0 ∨ b < 0) :
    ∃ p0 p1 p2 rest, Split (toString a ++ "-" ++ toString b) '-' = p0 :: p1 :: p2 :: rest := by
  have key : ∀ l1 l2 l3 : List Char, '-' ∉ l1 → '-' ∉ l2 →
      ∃ q0 q1 q2 qs, splitLoop '-' (l1 ++ '-' :: (l2 ++ '-' :: l3)) [] = q0 :: q1 :: q2 :: qs := by
    intro l1 l2 l3 h1 h2
    rw [splitLoop_append_sep '-' _ _ [] h1, splitLoop_append_sep '-' _ _ [] h2]
    cases hq : splitLoop '-' l3 [] with
    | nil => exact absurd hq (splitLoop_ne_nil _ _ _)
    | cons q qs => exact ⟨_, _, _, _, rfl⟩
  unfold Split
  cases a with
  | negSucc n =>
    have hl : (toString (Int.negSucc n) ++ "-" ++ toString b).toList
        = [] ++ '-' :: ((Nat.repr (n + 1)).toList ++ '-' :: (toString b).toList) := by
      show (("-" ++ Nat.repr (n + 1)) ++ "-" ++ toString b).toList = _
      simp [String.toList, String.data_append]
    obtain ⟨q0, q1, q2, qs, hq⟩ := key [] (Nat.repr (n + 1)).toList (toString b).toList
      (by simp) (repr_no_sep (n + 1)).1
    rw [hl, hq]
    exact ⟨_, _, _, _, rfl⟩
  | ofNat n =>
    cases b with
    | ofNat m =>
      exfalso
      rcases h with h | h
      · exact absurd h (by simp)
      · exact absurd h (by simp)
    | negSucc m =>
      have hl : (toString (Int.ofNat n) ++ "-" ++ toString (Int.negSucc m)).toList
          = (Nat.repr n).toList ++ '-' :: ([] ++ '-' :: (Nat.repr (m + 1)).toList) := by
        show (Nat.repr n ++ "-" ++ ("-" ++ Nat.repr (m + 1))).toList = _
        simp [String.toList, String.data_append]
      obtain ⟨q0, q1, q2, qs, hq⟩ := key (Nat.repr n).toList [] (Nat.repr (m + 1)).toList
        (repr_no_sep n).1 (by simp)
      rw [hl, hq]
      exact ⟨_, _, _, _, rfl⟩

/-- A range item written with two natural numbers is parsed from its two numbers. -/
theorem parseRange_nat (na nb : Nat) (minValue maxValue : Int) :
    parseRange (toString (na : Int) ++ "-" ++ toString (nb : Int)) minValue maxValue =
      (match Atoi (Nat.repr na) with
       | .ok startNum =>
         match Atoi (Nat.repr nb) with
         | .ok endNum =>
           if startNum < minValue ∨ startNum > maxValue then
             .error (errStartRange startNum minValue maxValue)
           else if endNum < minValue ∨ endNum > maxValue then
             .error (errEndRange endNum minValue maxValue)
           else if startNum > endNum then .error (errStartGreater startNum endNum)
           else sliceWithStep startNum endNum 1
         | .error e => .error (.wrap "failed to parse end int" e)
         | .panic => .panic
         | .diverge => .diverge
       | .error e => .error (.wrap "failed to parse start int" e)
       | .panic => .panic
       | .diverge => .diverge) := by
  have hs : Split (toString (na : Int) ++ "-" ++ toString (nb : Int)) '-'
      = [Nat.repr na, Nat.repr nb] :=
    split_two '-' (Nat.repr na) (Nat.repr nb) (repr_no_sep na).1 (repr_no_sep nb).1
  unfold parseRange
  rw [hs]

/-- C11: over a domain with `0 ≤ min` and `max` below the largest `int`, for all
integers `a` and `b` the range item `a-b` parses iff `a` and `b` both lie in
`[min,max]` and `a ≤ b`, and then yields exactly `a, a+1, ..., b` in order; in
every other case it is rejected with an error, in particular when `a > b`. -/
theorem parseRange_succeeds_iff (minValue maxValue a b : Int)
    (hmin : 0 ≤ minValue) (hmax : maxValue < maxInt64) :
    ((minValue ≤ a ∧ a ≤ maxValue ∧ minValue ≤ b ∧ b ≤ maxValue ∧ a ≤ b) →
      parseRange (toString a ++ "-" ++ toString b) minValue maxValue
        = .ok (intsFromTo a b) ∧
      parseNumber (toString a ++ "-" ++ toString b) minValue maxValue
        = .ok (intsFromTo a b)) ∧
    (¬ (minValue ≤ a ∧ a ≤ maxValue ∧ minValue ≤ b ∧ b ≤ maxValue ∧ a ≤ b) →
      (∃ e, parseRange (toString a ++ "-" ++ toString b) minValue maxValue = .error e) ∧
      (∃ e, parseNumber (toString a ++ "-" ++ toString b) minValue maxValue = .error e)) ∧
    (a > b →
      ∃ e, parseRange (toString a ++ "-" ++ toString b) minValue maxValue = .error e) := by
  have hslash : '/' ∉ (toString a ++ "-" ++ toString b).toList := by
    simp only [String.toList, String.data_append]
    intro h
    rcases List.mem_append.mp h with h | h
    · rcases List.mem_append.mp h with h | h
      · exact int_toString_no_slash a h
      · exact absurd h (by decide)
    · exact int_toString_no_slash b h
  have hdash : '-' ∈ (toString a ++ "-" ++ toString b).toList := by
    simp only [String.toList, String.data_append]
    exact List.mem_append_left _ (List.mem_append_right _ (by decide))
  have hnum := parseNumber_of_dash _ minValue maxValue hslash hdash
  -- the error half, shared by the second and third parts
  have herr : ¬ (minValue ≤ a ∧ a ≤ maxValue ∧ minValue ≤ b ∧ b ≤ maxValue ∧ a ≤ b) →
      ∃ e, parseRange (toString a ++ "-" ++ toString b) minValue maxValue = .error e := by
    intro hc
    by_cases hneg : a < 0 ∨ b < 0
    · obtain ⟨p0, p1, p2, rest, hs⟩ := split_negative a b hneg
      exact ⟨_, parseRange_three_parts _ _ _ _ _ _ _ hs⟩
    · obtain ⟨na, rfl⟩ := Int.eq_ofNat_of_zero_le (by omega : 0 ≤ a)
      obtain ⟨nb, rfl⟩ := Int.eq_ofNat_of_zero_le (by omega : 0 ≤ b)
      rw [parseRange_nat, atoi_repr, atoi_repr]
      by_cases ha : (na : Int) ≤ maxInt64
      · rw [if_pos ha]
        by_cases hb : (nb : Int) ≤ maxInt64
        · rw [if_pos hb]
          simp only
          split_ifs with h1 h2 h3
          · exact ⟨_, rfl⟩
          · exact ⟨_, rfl⟩
          · exact ⟨_, rfl⟩
          · exfalso
            apply hc
            omega
        · rw [if_neg hb]
          exact ⟨_, rfl⟩
      · rw [if_neg ha]
        exact ⟨_, rfl⟩
  refine ⟨?_, ?_, ?_⟩
  · intro hc
    obtain ⟨na, rfl⟩ := Int.eq_ofNat_of_zero_le (by omega : 0 ≤ a)
    obtain ⟨nb, rfl⟩ := Int.eq_ofNat_of_zero_le (by omega : 0 ≤ b)
    have hr : parseRange (toString (na : Int) ++ "-" ++ toString (nb : Int)) minValue maxValue
        = .ok (intsFromTo na nb) := by
      rw [parseRange_nat, atoi_repr, atoi_repr, if_pos (by omega), if_pos (by omega)]
      simp only
      rw [if_neg (by omega), if_neg (by omega), if_neg (by omega)]
      exact sliceWithStep_one _ _ (by unfold minInt64; omega) hc.2.2.2.2 (by omega)
        (by omega)
    refine ⟨hr, ?_⟩
    rw [hnum, hr]
  · intro hc
    obtain ⟨e, he⟩ := herr hc
    refine ⟨⟨e, he⟩, ?_⟩
    rw [hnum, he]
    exact ⟨_, rfl⟩
  · intro hab
    exact herr (by omega)

set_option maxRecDepth 100000 in
/-- C11 over the domain 0..6: `2-5` yields 2, 3, 4, 5 and `5-2` is rejected. -/
theorem parseRange_succeeds_iff_witness :
    parseRange "2-5" 0 6 = .ok [2, 3, 4, 5] ∧
    parseNumber "2-5" 0 6 = .ok [2, 3, 4, 5] ∧
    ∃ e, parseRange "5-2" 0 6 = .error e :=
  ⟨((parseRange_succeeds_iff 0 6 2 5 (by decide) (by decide)).1 (by decide)).1,
   ((parseRange_succeeds_iff 0 6 2 5 (by decide) (by decide)).1 (by decide)).2,
   (parseRange_succeeds_iff 0 6 5 2 (by decide) (by decide)).2.2 (by decide)⟩

/-! ## Theorems: steps -/

set_option maxRecDepth 100000 in
/-- C12: over the domain 0..59 the step item `1/9223372036854775807` (start 1 in
range, step at least 1) yields `[1, -9223372036854775808, -1]`, not the single
value 1 that is the only `1 + k*n` up to 59. -/
theorem parseSlash_step_wraps :
    parseSlash "1/9223372036854775807" 0 59 = .ok [1, -9223372036854775808, -1] ∧
    parseNumber "1/9223372036854775807" 0 59 = .ok [1, -9223372036854775808, -1] ∧
    Atoi "9223372036854775807" = .ok 9223372036854775807 := by
  refine ⟨by decide, by decide, by decide⟩

set_option maxRecDepth 100000 in
/-- C13: over the domain 0..59 the stepped range `1-45/9223372036854775807` (ends
in range, start below end, step at least 1) yields
`[1, -9223372036854775808, -1]`, not the single value 1 that is the only
`1 + k*n` up to 45. -/
theorem parseSlashRange_step_wraps :
    parseSlash "1-45/9223372036854775807" 0 59 = .ok [1, -9223372036854775808, -1] ∧
    parseSlashRange "1-45" "9223372036854775807" 0 59
      = .ok [1, -9223372036854775808, -1] ∧
    parseNumber "1-45/9223372036854775807" 0 59 = .ok [1, -9223372036854775808, -1] := by
  refine ⟨by decide, by decide, by decide⟩

/-! ## Theorems: plain numbers and the wildcard -/

/-- An item without `/` and `-` that is not `*` is handed by `parseNumber` to
`strconv.Atoi`. -/
theorem parseNumber_plain_item (value : String) (minValue maxValue : Int)
    (hstar : value ≠ "*") (h1 : '/' ∉ value.toList) (h2 : '-' ∉ value.toList) :
    parseNumber value minValue maxValue =
      (match Atoi value with
       | .ok number =>
         if number < minValue ∨ number > maxValue then
           .error (errValueRange number minValue maxValue)
         else .ok [number]
       | .error e => .error (.wrap "failed to parse int" e)
       | .panic => .panic
       | .diverge => .diverge) := by
  have hs : Contains value '/' = false := by
    unfold Contains
    simpa using h1
  have hd : Contains value '-' = false := by
    unfold Contains
    simpa using h2
  unfold parseNumber
  rw [if_neg hstar, hs, hd]
  simp

/-- The decimal text of a natural number is not the wildcard. -/
theorem repr_ne_star (n : Nat) : Nat.repr n ≠ "*" := by
  intro h
  obtain ⟨hne, hdig, _⟩ := repr_digits n
  rw [h] at hdig
  exact absurd (hdig '*' (by decide)) (by decide)

set_option maxRecDepth 100000 in
/-- C14 as stated fails: over the minute domain the item `9223372036854775808`, a
plain decimal integer outside the domain, is rejected with the range error of
`strconv.Atoi`, not with `value 9223372036854775808 is not in range 0-59`; and over
the hour domain the item `-3` is rejected as a range without start, not with
`value -3 is not in range 0-23`. -/
theorem parseNumber_error_not_value_range :
    parseNumber "9223372036854775808" 0 59
      = .error (.wrap "failed to parse int" (.atoi "9223372036854775808" .outOfRange)) ∧
    parseNumber "9223372036854775808" 0 59
      ≠ .error (errValueRange 9223372036854775808 0 59) ∧
    parseNumber "-3" 0 23
      = .error (.wrapQ "failed to parse range" "-3"
          (.wrap "failed to parse start int" (.atoi "" .invalidSyntax))) ∧
    parseNumber "-3" 0 23 ≠ .error (errValueRange (-3) 0 23) := by
  refine ⟨by decide, by decide, by decide, by decide⟩

/-- C14, amended: for every domain and every item that is a plain unsigned decimal
integer `n` that is an `int`, `parseNumber` returns `[n]` iff `min ≤ n ≤ max` and
otherwise fails with the error `value n is not in range min-max`; an unsigned
decimal integer too large for an `int` fails with the range error of
`strconv.Atoi`; an item that is not `*`, holds no `/` and no `-` and is not a
number fails with the error of `strconv.Atoi`, as `@forty` does. -/
theorem parseNumber_plain (minValue maxValue : Int) :
    (∀ n : Nat, (n : Int) ≤ maxInt64 →
      ((minValue ≤ n ∧ (n : Int) ≤ maxValue) →
        parseNumber (toString n) minValue maxValue = .ok [(n : Int)]) ∧
      (¬ (minValue ≤ n ∧ (n : Int) ≤ maxValue) →
        parseNumber (toString n) minValue maxValue
          = .error (errValueRange n minValue maxValue) ∧
        ∀ quote : String → String,
          (errValueRange n minValue maxValue).Error quote
            = "value " ++ toString n ++ " is not in range " ++ toString minValue ++ "-"
              ++ toString maxValue)) ∧
    (∀ n : Nat, maxInt64 < (n : Int) →
      parseNumber (toString n) minValue maxValue
        = .error (.wrap "failed to parse int" (.atoi (toString n) .outOfRange))) ∧
    (∀ (value : String) (k : NumErrKind), value ≠ "*" → '/' ∉ value.toList →
      '-' ∉ value.toList → Atoi value = .error (.atoi value k) →
      parseNumber value minValue maxValue
        = .error (.wrap "failed to parse int" (.atoi value k))) ∧
    parseNumber "@forty" minValue maxValue
      = .error (.wrap "failed to parse int" (.atoi "@forty" .invalidSyntax)) := by
  have hgen : ∀ (value : String) (k : NumErrKind), value ≠ "*" → '/' ∉ value.toList →
      '-' ∉ value.toList → Atoi value = .error (.atoi value k) →
      parseNumber value minValue maxValue
        = .error (.wrap "failed to parse int" (.atoi value k)) := by
    intro value k hstar h1 h2 hat
    rw [parseNumber_plain_item value _ _ hstar h1 h2, hat]
  have hnat : ∀ n : Nat, parseNumber (toString n) minValue maxValue =
      (match Atoi (Nat.repr n) with
       | .ok number =>
         if number < minValue ∨ number > maxValue then
           .error (errValueRange number minValue maxValue)
         else .ok [number]
       | .error e => .error (.wrap "failed to parse int" e)
       | .panic => .panic
       | .diverge => .diverge) :=
    fun n => parseNumber_plain_item (Nat.repr n) _ _ (repr_ne_star n) (repr_no_sep n).2
      (repr_no_sep n).1
  refine ⟨?_, ?_, hgen, ?_⟩
  · intro n hn
    constructor
    · intro hr
      rw [hnat, atoi_repr, if_pos hn]
      simp only
      rw [if_neg (by omega)]
    · intro hr
      refine ⟨?_, fun _ => rfl⟩
      rw [hnat, atoi_repr, if_pos hn]
      simp only
      rw [if_pos (by omega)]
  · intro n hn
    rw [hnat, atoi_repr, if_neg (by omega)]
    rfl
  · exact hgen "@forty" .invalidSyntax (by decide) (by decide) (by decide) (by decide)

set_option maxRecDepth 100000 in
/-- C14, amended, over the minute domain: `7` gives `[7]` and `60` is rejected with
`value 60 is not in range 0-59`. -/
theorem parseNumber_plain_witness :
    parseNumber "7" 0 59 = .ok [7] ∧
    parseNumber "60" 0 59 = .error (.plain "value 60 is not in range 0-59") ∧
    parseNumber "9223372036854775808" 0 59
      = .error (.wrap "failed to parse int" (.atoi "9223372036854775808" .outOfRange)) :=
  ⟨((parseNumber_plain 0 59).1 7 (by decide)).1 (by decide),
   (((parseNumber_plain 0 59).1 60 (by decide)).2 (by decide)).1,
   (parseNumber_plain 0 59).2.1 9223372036854775808 (by decide)⟩

/-- C15: for every domain with `min ≤ max` whose bounds are `int`s, with `max` and
the count `max - min` below the largest `int`, parsing the field `*` yields exactly
the contiguous integers `min, min+1, ..., max` in order, `max - min + 1` values. -/
theorem parseField_star (minValue maxValue : Int)
    (hmin : minInt64 ≤ minValue) (hle : minValue ≤ maxValue)
    (hmax : maxValue < maxInt64) (hlen : maxValue - minValue < maxInt64) :
    parseField "*" minValue maxValue = .ok (intsFromTo minValue maxValue) ∧
    parseNumber "*" minValue maxValue = .ok (intsFromTo minValue maxValue) ∧
    ((intsFromTo minValue maxValue).length : Int) = maxValue - minValue + 1 ∧
    (intsFromTo minValue maxValue).Sorted (· < ·) ∧
    (∀ v, v ∈ intsFromTo minValue maxValue ↔ minValue ≤ v ∧ v ≤ maxValue) := by
  have h := sliceWithStep_one minValue maxValue hmin hle hmax hlen
  refine ⟨?_, ?_, length_intsFromTo _ _ hle, intsFromTo_sorted _ _, mem_intsFromTo _ _⟩
  · unfold parseField
    rw [if_pos rfl, h]
  · unfold parseNumber
    rw [if_pos rfl, h]

set_option maxRecDepth 100000 in
/-- C15 over the minute domain: `*` yields 0, 1, ..., 59. -/
theorem parseField_star_witness :
    parseField "*" 0 59 = .ok allMinutes ∧ parseNumber "*" 0 59 = .ok allMinutes :=
  ⟨(parseField_star 0 59 (by decide) (by decide) (by decide) (by decide)).1,
   (parseField_star 0 59 (by decide) (by decide) (by decide) (by decide)).2.1⟩

/-! ## Theorems: scenarios -/

/-- A loop of `nextFor` that has ended keeps its result when given more fuel. -/
theorem nextForLoop_more_fuel (c : Cron) (limit : Time) (fuel : Nat) :
    ∀ (next : Time) (times : List Time) (r : Res (List Time)),
      nextForLoop c limit fuel next times = some r →
      ∀ k : Nat, nextForLoop c limit (fuel + k) next times = some r := by
  induction fuel with
  | zero =>
    intro next times r h
    simp [nextForLoop] at h
  | succ n ih =>
    intro next times r h k
    have hk : n + 1 + k = (n + k) + 1 := by omega
    rw [hk]
    unfold nextForLoop at h ⊢
    by_cases hb : next.Before limit = true
    · rw [if_pos hb] at h ⊢
      cases hn : c.next next with
      | ok next1 =>
        rw [hn] at h
        simp only at h ⊢
        exact ih _ _ _ h k
      | error e => rw [hn] at h; exact h
      | panic => rw [hn] at h; exact h
      | diverge => rw [hn] at h; exact h
    · rw [if_neg hb] at h ⊢
      exact h

/-- A call of `nextFor` that has returned keeps its result when given more fuel. -/
theorem nextFor_more_fuel (c : Cron) (fuel : Nat) (start : Time) (d : Duration)
    (r : Res (List Time)) (h : c.nextFor fuel start d = some r) (k : Nat) :
    c.nextFor (fuel + k) start d = some r := by
  unfold Cron.nextFor at h ⊢
  cases hn : c.next start with
  | ok next =>
    rw [hn] at h
    simp only at h ⊢
    exact nextForLoop_more_fuel c _ fuel _ _ _ h k
  | error e => rw [hn] at h; exact h
  | panic => rw [hn] at h; exact h
  | diverge => rw [hn] at h; exact h

set_option maxRecDepth 100000 in
/-- Scenario C with fuel for six iterations. -/
theorem workingHours_nextFor_six :
    workingHoursCron.nextFor 6 (Date 2024 3 29 10 36 0 0) (72 * hourDuration)
      = some (.ok [Date 2024 3 29 11 30 0 0, Date 2024 3 29 13 30 0 0,
          Date 2024 3 29 15 30 0 0, Date 2024 3 29 17 30 0 0,
          Date 2024 4 1 9 30 0 0]) := by
  decide

set_option maxRecDepth 100000 in
/-- C16 (scenario C): `30 9-17/2 * * 1-5` parses, and `nextFor` from
2024-03-29T10:36:00Z with a window of 72 hours returns (given fuel for its six
iterations, or more) exactly 11:30, 13:30, 15:30 and 17:30 of 2024-03-29 and 09:30
of 2024-04-01, skipping the weekend. -/
theorem scenario_working_hours :
    ParseCron "30 9-17/2 * * 1-5" = .ok workingHoursCron ∧
    ∀ k : Nat,
      workingHoursCron.nextFor (6 + k) (Date 2024 3 29 10 36 0 0) (72 * hourDuration)
        = some (.ok [Date 2024 3 29 11 30 0 0, Date 2024 3 29 13 30 0 0,
            Date 2024 3 29 15 30 0 0, Date 2024 3 29 17 30 0 0,
            Date 2024 4 1 9 30 0 0]) := by
  refine ⟨by decide, ?_⟩
  intro k
  exact nextFor_more_fuel _ 6 _ _ _ workingHours_nextFor_six k

set_option maxRecDepth 100000 in
/-- C17 (scenario B): the schedule `0 3 1 * *` is the expression with Minute `[0]`,
Hour `[3]`, DayOfMonth `[1]`, every month and DayOfWeek nil, and for the reference
2021-01-03T14:36:00Z `next` returns 2021-02-01T03:00:00Z. -/
theorem scenario_first_of_month :
    ParseCron "0 3 1 * *" = .ok monthlyCron ∧
    monthlyCron = ⟨some [0], some [3], some [1],
      some [1, 2, 3, 4, 5, 6, 7, 8, 9, 10, 11, 12], none⟩ ∧
    monthlyCron.next (Date 2021 1 3 14 36 0 0) = .ok (Date 2021 2 1 3 0 0 0) := by
  refine ⟨by decide, by decide, by decide⟩

/-! ## Theorems: the calendar -/

/-- A day of the 400-year era splits into centuries, four-year cycles, years and
a day of the year; the last year of a cycle has a 366th day unless the cycle ends
a century that is not the last of the era. -/
theorem doe_decomp (a : Int) (h0 : 0 ≤ a) (h1 : a ≤ 146096) :
    ∃ q p t u : Int, 0 ≤ q ∧ q ≤ 3 ∧ 0 ≤ p ∧ p ≤ 24 ∧ 0 ≤ t ∧ t ≤ 3 ∧ 0 ≤ u ∧
      (u ≤ 364 ∨ (u = 365 ∧ t = 3 ∧ (p < 24 ∨ q = 3))) ∧
      a = 36524 * q + 1461 * p + 365 * t + u := by
  by_cases ha : a = 146096
  · exact ⟨3, 24, 3, 365, by omega⟩
  · by_cases hs : a % 36524 % 1461 = 1460
    · exact ⟨a / 36524, a % 36524 / 1461, 3, 365, by omega⟩
    · exact ⟨a / 36524, a % 36524 / 1461, a % 36524 % 1461 / 365,
        a % 36524 % 1461 % 365, by omega⟩

/-- The year-of-era formula of `civilFromDays` on a decomposed day of the era. -/
theorem yoe_of_decomp (a q p t u : Int) (hq0 : 0 ≤ q) (hq : q ≤ 3) (hp0 : 0 ≤ p)
    (hp : p ≤ 24) (ht0 : 0 ≤ t) (ht : t ≤ 3) (hu0 : 0 ≤ u)
    (hu : u ≤ 364 ∨ (u = 365 ∧ t = 3 ∧ (p < 24 ∨ q = 3)))
    (ha : a = 36524 * q + 1461 * p + 365 * t + u) :
    (a - a / 1460 + a / 36524 - a / 146096) / 365 = 100 * q + 4 * p + t := by
  have hr : 1461 * p + 365 * t + u ≤ 36523 ∨ (q = 3 ∧ a = 146096) := by omega
  have hde : a / 36524 - a / 146096 = q := by
    rcases hr with hr | ⟨h3, h4⟩
    · have h1 : a / 36524 = q := by omega
      have h2 : a / 146096 = 0 := by omega
      omega
    · subst h4
      omega
  have hw : 24 * q + p + 365 * t + u < 1460 ∨ 1460 ≤ 24 * q + p + 365 * t + u := by
    omega
  rcases hw with hw | hw
  · have hc : a / 1460 = 25 * q + p := by omega
    omega
  · have hc : a / 1460 = 25 * q + p + 1 := by omega
    omega

/-- Year of the era and day of the year computed from a day of the era: the year
lies in 0..399, the day of the year in 0..365, and together they give the day
of the era back. -/
theorem yoe_doy_bounds (a : Int) (h0 : 0 ≤ a) (h1 : a ≤ 146096) :
    0 ≤ (a - a / 1460 + a / 36524 - a / 146096) / 365 ∧
    (a - a / 1460 + a / 36524 - a / 146096) / 365 ≤ 399 ∧
    0 ≤ a - (365 * ((a - a / 1460 + a / 36524 - a / 146096) / 365)
      + (a - a / 1460 + a / 36524 - a / 146096) / 365 / 4
      - (a - a / 1460 + a / 36524 - a / 146096) / 365 / 100) ∧
    a - (365 * ((a - a / 1460 + a / 36524 - a / 146096) / 365)
      + (a - a / 1460 + a / 36524 - a / 146096) / 365 / 4
      - (a - a / 1460 + a / 36524 - a / 146096) / 365 / 100) ≤ 365 := by
  obtain ⟨q, p, t, u, hq0, hq, hp0, hp, ht0, ht, hu0, hu, ha⟩ := doe_decomp a h0 h1
  rw [yoe_of_decomp a q p t u hq0 hq hp0 hp ht0 ht hu0 hu ha]
  have h4 : (100 * q + 4 * p + t) / 4 = 25 * q + p := by omega
  have h100 : (100 * q + 4 * p + t) / 100 = q := by omega
  rw [h4, h100]
  omega

/-- Month index and day of the month computed from a day of the year. -/
theorem month_of_doy (doy : Int) (h0 : 0 ≤ doy) (h1 : doy ≤ 365) :
    0 ≤ (5 * doy + 2) / 153 ∧ (5 * doy + 2) / 153 ≤ 11 ∧
    1 ≤ doy - (153 * ((5 * doy + 2) / 153) + 2) / 5 + 1 ∧
    doy - (153 * ((5 * doy + 2) / 153) + 2) / 5 + 1 ≤ 31 ∧
    (doy - (153 * ((5 * doy + 2) / 153) + 2) / 5 + 1 = 31 →
      (5 * doy + 2) / 153 ≠ 1 ∧ (5 * doy + 2) / 153 ≠ 3 ∧ (5 * doy + 2) / 153 ≠ 6 ∧
      (5 * doy + 2) / 153 ≠ 8 ∧ (5 * doy + 2) / 153 ≠ 11) := by
  have hm : 0 ≤ (5 * doy + 2) / 153 ∧ (5 * doy + 2) / 153 ≤ 11 := by omega
  generalize hmp : (5 * doy + 2) / 153 = mp at hm ⊢
  obtain ⟨hm0, hm1⟩ := hm
  interval_cases mp <;> omega

/-- The parts of the date computed by `civilFromDays`: the era, the year of the
era, the day of the year and the month index counted from March. -/
theorem civilFromDays_parts (z : Int) :
    ∃ era yoe doy mp : Int, 0 ≤ yoe ∧ yoe ≤ 399 ∧ 0 ≤ doy ∧ doy ≤ 365 ∧
      0 ≤ mp ∧ mp ≤ 11 ∧ mp = (5 * doy + 2) / 153 ∧
      1 ≤ doy - (153 * mp + 2) / 5 + 1 ∧ doy - (153 * mp + 2) / 5 + 1 ≤ 31 ∧
      (doy - (153 * mp + 2) / 5 + 1 = 31 →
        mp ≠ 1 ∧ mp ≠ 3 ∧ mp ≠ 6 ∧ mp ≠ 8 ∧ mp ≠ 11) ∧
      z + 719468 = era * 146097 + (yoe * 365 + yoe / 4 - yoe / 100 + doy) ∧
      civilFromDays z =
        (if (if mp < 10 then mp + 3 else mp - 9) ≤ 2 then yoe + era * 400 + 1
          else yoe + era * 400,
         if mp < 10 then mp + 3 else mp - 9,
         doy - (153 * mp + 2) / 5 + 1) := by
  have hdoe : 0 ≤ z + 719468 - (z + 719468) / 146097 * 146097 ∧
      z + 719468 - (z + 719468) / 146097 * 146097 ≤ 146096 := by omega
  generalize hd : z + 719468 - (z + 719468) / 146097 * 146097 = doe at hdoe
  obtain ⟨hy0, hy1, hdoy0, hdoy1⟩ := yoe_doy_bounds doe hdoe.1 hdoe.2
  generalize hyoe : (doe - doe / 1460 + doe / 36524 - doe / 146096) / 365 = yoe
    at hy0 hy1 hdoy0 hdoy1
  generalize hdoy : doe - (365 * yoe + yoe / 4 - yoe / 100) = doy at hdoy0 hdoy1
  obtain ⟨hm0, hm1, hday0, hday1, h31⟩ := month_of_doy doy hdoy0 hdoy1
  refine ⟨(z + 719468) / 146097, yoe, doy, (5 * doy + 2) / 153, hy0, hy1, hdoy0, hdoy1,
    hm0, hm1, rfl, hday0, hday1, h31, by omega, ?_⟩
  unfold civilFromDays
  simp only [hd, hyoe, hdoy]

/-- The date computed by `civilFromDays` has a month in 1..12 and a day in 1..31,
its day count is the day it came from, and a 31st lies in a month of 31 days. -/
theorem civilFromDays_spec (z : Int) :
    1 ≤ (civilFromDays z).2.1 ∧ (civilFromDays z).2.1 ≤ 12 ∧
    1 ≤ (civilFromDays z).2.2 ∧ (civilFromDays z).2.2 ≤ 31 ∧
    daysFromCivil (civilFromDays z).1 (civilFromDays z).2.1 (civilFromDays z).2.2 = z ∧
    ((civilFromDays z).2.2 = 31 →
      (civilFromDays z).2.1 ≠ 2 ∧ (civilFromDays z).2.1 ≠ 4 ∧ (civilFromDays z).2.1 ≠ 6 ∧
      (civilFromDays z).2.1 ≠ 9 ∧ (civilFromDays z).2.1 ≠ 11) := by
  obtain ⟨era, yoe, doy, mp, hy0, hy1, hd0, hd1, hm0, hm1, hmp, hday0, hday1, h31, hz, hc⟩ :=
    civilFromDays_parts z
  rw [hc]
  have hera : (yoe + era * 400) / 400 = era := by omega
  by_cases hlt : mp < 10
  · have hm2 : ¬ (mp + 3 ≤ 2) := by omega
    have hm3 : mp + 3 > 2 := by omega
    simp only [if_pos hlt, if_neg hm2]
    refine ⟨by omega, by omega, hday0, hday1, ?_, ?_⟩
    · have h1 : yoe + era * 400 - era * 400 = yoe := by omega
      have h2 : mp + 3 - 3 = mp := by omega
      unfold daysFromCivil
      simp only [if_neg hm2, if_pos hm3, hera, h1, h2]
      omega
    · intro h
      have := h31 h
      omega
  · have hm2 : mp - 9 ≤ 2 := by omega
    have hm3 : ¬ (mp - 9 > 2) := by omega
    simp only [if_neg hlt, if_pos hm2]
    refine ⟨by omega, by omega, hday0, hday1, ?_, ?_⟩
    · have hy : yoe + era * 400 + 1 - 1 = yoe + era * 400 := by omega
      have h1 : yoe + era * 400 - era * 400 = yoe := by omega
      have h2 : mp - 9 + 9 = mp := by omega
      unfold daysFromCivil
      simp only [if_pos hm2, if_neg hm3, hy, hera, h1, h2]
      omega
    · intro h
      have := h31 h
      omega

/-- The day count is linear in the day of the month. -/
theorem daysFromCivil_day (y m d : Int) :
    daysFromCivil y m d = daysFromCivil y m 1 + (d - 1) := by
  unfold daysFromCivil
  simp only
  omega

/-- After the 31st of a month of 31 days other than December comes the first of
the next month. -/
theorem daysFromCivil_next_month (y m : Int)
    (hm : m = 1 ∨ m = 3 ∨ m = 5 ∨ m = 7 ∨ m = 8 ∨ m = 10) :
    daysFromCivil y (m + 1) 1 = daysFromCivil y m 1 + 31 := by
  unfold daysFromCivil
  rcases hm with rfl | rfl | rfl | rfl | rfl | rfl <;> simp <;> omega

/-- After the 31st of December comes the first of January of the next year. -/
theorem daysFromCivil_next_year (y : Int) :
    daysFromCivil (y + 1) 1 1 = daysFromCivil y 12 1 + 31 := by
  have hy : y + 1 - 1 = y := by omega
  unfold daysFromCivil
  simp [hy]
  omega

/-- The first of January is not after the first of December of the same year. -/
theorem daysFromCivil_jan_le_dec (y : Int) :
    daysFromCivil y 1 1 ≤ daysFromCivil y 12 1 := by
  unfold daysFromCivil
  simp
  by_cases h : y % 400 = 0
  · have h1 : (y - 1) / 400 = y / 400 - 1 := by omega
    rw [h1]
    omega
  · have h1 : (y - 1) / 400 = y / 400 := by omega
    rw [h1]
    omega

/-! ## Theorems: every minute -/

/-- An instant whose seconds since January 1 of year 1 fit in an `int64` is not
changed by the wrap-around. -/
theorem wrapInstant_of_inInt64 (n : Int)
    (h : inInt64 (n / 1000000000 + 62135596800)) : wrapInstant n = n := by
  unfold wrapInstant
  rw [wrap64_eq_self _ h]
  omega

/-- The instant built by `time.Date` for a month in 1..12, at second 0, when its
seconds since January 1 of year 1 fit in an `int64`. -/
theorem date_unixNano (y m d h mi : Int) (hm1 : 1 ≤ m) (hm2 : m ≤ 12)
    (hr : inInt64
      (((daysFromCivil y m 1 + (d - 1)) * 1440 + h * 60 + mi) * 60 + 62135596800)) :
    Date y m d h mi 0 0
      = ⟨((daysFromCivil y m 1 + (d - 1)) * 1440 + h * 60 + mi) * 60000000000⟩ := by
  have h1 : (m - 1) / 12 = 0 := by omega
  have h2 : (m - 1) % 12 + 1 = m := by omega
  have hd := daysFromCivil_day y m d
  unfold Date
  simp only [h1, h2, add_zero]
  rw [hd]
  generalize daysFromCivil y m 1 = z at hr ⊢
  have e : (((z + (d - 1)) * 24 + h) * 60 + mi) * 60 * 1000000000
      = ((z + (d - 1)) * 1440 + h * 60 + mi) * 60000000000 := by omega
  rw [e, wrapInstant_of_inInt64]
  have e2 : ((z + (d - 1)) * 1440 + h * 60 + mi) * 60000000000 / 1000000000
      = ((z + (d - 1)) * 1440 + h * 60 + mi) * 60 := by omega
  rw [e2]
  exact hr

/-- The first of a month lies at most 335 days after the first of January of the
same year, and not before it. -/
theorem daysFromCivil_month_bounds (y m : Int) (hm1 : 1 ≤ m) (hm2 : m ≤ 12) :
    daysFromCivil y 1 1 ≤ daysFromCivil y m 1 ∧
    daysFromCivil y m 1 ≤ daysFromCivil y 1 1 + 335 := by
  have key : ((y - 1) / 400 = y / 400 - 1 ∧ y % 400 = 0) ∨
      ((y - 1) / 400 = y / 400 ∧ y % 400 ≠ 0) := by omega
  unfold daysFromCivil
  interval_cases m <;> simp <;> rcases key with ⟨k1, k2⟩ | ⟨k1, k2⟩ <;>
    (try simp only [k1]) <;> omega

set_option maxRecDepth 100000 in
/-- In the list of all minutes the first element above a minute is the next
minute, and past 59 the search wraps to 0. -/
theorem getFirst_allMinutes (mi : Int) (h0 : 0 ≤ mi) (h1 : mi ≤ 59) :
    getFirstElementGreaterThan (some allMinutes) mi
      = .ok (if mi < 59 then mi + 1 else 0) := by
  interval_cases mi <;> rfl

set_option maxRecDepth 100000 in
/-- In the list of all hours the first element above an hour is the next hour,
and past 23 the search wraps to 0. -/
theorem getFirst_allHours (h : Int) (h0 : 0 ≤ h) (h1 : h ≤ 23) :
    getFirstElementGreaterThan (some allHours) h = .ok (if h < 23 then h + 1 else 0) := by
  interval_cases h <;> rfl

set_option maxRecDepth 100000 in
/-- In the list of all months the first element above a month is the next month,
and past 12 the search wraps to 1. -/
theorem getFirst_allMonths (m : Int) (h0 : 1 ≤ m) (h1 : m ≤ 12) :
    getFirstElementGreaterThan (some allMonths) m = .ok (if m < 12 then m + 1 else 1) := by
  interval_cases m <;> rfl

set_option maxRecDepth 100000 in
/-- With both day fields holding every value, `nextDay` yields the next day
number, and 1 after 31. -/
theorem nextDay_allDays (w d : Int) (hw0 : 0 ≤ w) (hw1 : w ≤ 6) (hd0 : 1 ≤ d)
    (hd1 : d ≤ 31) :
    nextDay (some allDaysOfWeek) (some allDaysInMonth) w d
      = .ok (if d < 31 then d + 1 else 1) := by
  interval_cases d <;> interval_cases w <;> rfl

/-- Minute and hour of an instant, and its whole minutes since the epoch. -/
theorem time_of_day (t : Time) :
    0 ≤ t.Minute ∧ t.Minute ≤ 59 ∧ 0 ≤ t.Hour ∧ t.Hour ≤ 23 ∧
    0 ≤ t.Weekday ∧ t.Weekday ≤ 6 ∧
    t.unixNano / 60000000000 = t.unixDay * 1440 + t.Hour * 60 + t.Minute := by
  unfold Time.Minute Time.Hour Time.Weekday Time.unixDay Time.unixSec
  omega

/-- `After` on instants given by their nanoseconds. -/
theorem after_mk (a : Int) (t : Time) : (Time.mk a).After t = decide (a > t.unixNano) := rfl

/-- The cascade of `next` for the every-minute expression, on the calendar fields
of the reference, when January 1 of its year and the start of the next minute are
instants whose seconds since January 1 of year 1 fit in an `int64`: no instant
that the cascade builds wraps around. -/
theorem next_everyMinute_fields (t : Time) (y m d h mi w : Int)
    (hct : newCTime t = ⟨mi, h, d, m, w, y⟩)
    (hm1 : 1 ≤ m) (hm2 : m ≤ 12) (hd1 : 1 ≤ d) (hd2 : d ≤ 31)
    (hh1 : 0 ≤ h) (hh2 : h ≤ 23) (hmi1 : 0 ≤ mi) (hmi2 : mi ≤ 59)
    (hw1 : 0 ≤ w) (hw2 : w ≤ 6) (hy : inInt64 (y + 1))
    (h31 : d = 31 → m ≠ 2 ∧ m ≠ 4 ∧ m ≠ 6 ∧ m ≠ 9 ∧ m ≠ 11)
    (htm : t.unixNano / 60000000000
      = (daysFromCivil y m 1 + (d - 1)) * 1440 + h * 60 + mi)
    (hlo : -9223372036854775808 ≤ daysFromCivil y 1 1 * 86400 + 62135596800)
    (hhi : (t.unixNano / 60000000000 + 1) * 60 + 62135596800 ≤ 9223372036854775807) :
    everyMinuteCron.next t = .ok ⟨(t.unixNano / 60000000000 + 1) * 60000000000⟩ := by
  have hns1 : (t.unixNano / 60000000000) * 60000000000 ≤ t.unixNano := by omega
  have hns2 : t.unixNano < (t.unixNano / 60000000000 + 1) * 60000000000 := by omega
  obtain ⟨hmb1, -⟩ := daysFromCivil_month_bounds y m hm1 hm2
  generalize t.unixNano / 60000000000 = tm at htm hns1 hns2 hhi
  unfold Cron.next
  rw [hct]
  simp only [everyMinuteCron, Res.bind, ctime.time]
  rw [getFirst_allMinutes mi hmi1 hmi2]
  by_cases c1 : mi < 59
  · have hD := date_unixNano y m d h (mi + 1) hm1 hm2
      (by unfold inInt64 minInt64 maxInt64; omega)
    have hA : ((daysFromCivil y m 1 + (d - 1)) * 1440 + h * 60 + (mi + 1)) * 60000000000
        > t.unixNano := by omega
    simp only [if_pos c1, hD, after_mk, hA, decide_True, Bool.not_true,
      Bool.false_eq_true, if_false]
    congr 2
    omega
  · have hD0 := date_unixNano y m d h 0 hm1 hm2
      (by unfold inInt64 minInt64 maxInt64; omega)
    have hB : ¬ (((daysFromCivil y m 1 + (d - 1)) * 1440 + h * 60 + 0) * 60000000000
        > t.unixNano) := by omega
    simp only [if_neg c1, hD0, after_mk, hB, decide_False, Bool.not_false, if_true]
    rw [getFirst_allHours h hh1 hh2]
    by_cases c2 : h < 23
    · have hD1 := date_unixNano y m d (h + 1) 0 hm1 hm2
        (by unfold inInt64 minInt64 maxInt64; omega)
      have hA : ((daysFromCivil y m 1 + (d - 1)) * 1440 + (h + 1) * 60 + 0) * 60000000000
          > t.unixNano := by omega
      simp only [if_pos c2, hD1, after_mk, hA, decide_True, Bool.not_true,
        Bool.false_eq_true, if_false]
      congr 2
      omega
    · have hD2 := date_unixNano y m d 0 0 hm1 hm2
        (by unfold inInt64 minInt64 maxInt64; omega)
      have hC : ¬ (((daysFromCivil y m 1 + (d - 1)) * 1440 + 0 * 60 + 0) * 60000000000
          > t.unixNano) := by omega
      simp only [if_neg c2, hD2, after_mk, hC, decide_False, Bool.not_false, if_true]
      rw [nextDay_allDays w d hw1 hw2 hd1 hd2]
      by_cases c3 : d < 31
      · have hD3 := date_unixNano y m (d + 1) 0 0 hm1 hm2
          (by unfold inInt64 minInt64 maxInt64; omega)
        have hA : ((daysFromCivil y m 1 + (d + 1 - 1)) * 1440 + 0 * 60 + 0) * 60000000000
            > t.unixNano := by omega
        simp only [if_pos c3, hD3, after_mk, hA, decide_True, Bool.not_true,
          Bool.false_eq_true, if_false]
        congr 2
        omega
      · have hD4 := date_unixNano y m 1 0 0 hm1 hm2
          (by unfold inInt64 minInt64 maxInt64; omega)
        have hD : ¬ (((daysFromCivil y m 1 + (1 - 1)) * 1440 + 0 * 60 + 0) * 60000000000
            > t.unixNano) := by omega
        simp only [if_neg c3, hD4, after_mk, hD, decide_False, Bool.not_false, if_true]
        rw [getFirst_allMonths m hm1 hm2]
        by_cases c4 : m < 12
        · have hnm := daysFromCivil_next_month y m (by
            have := h31 (by omega)
            omega)
          have hD5 := date_unixNano y (m + 1) 1 0 0 (by omega) (by omega)
            (by unfold inInt64 minInt64 maxInt64; omega)
          have hA : ((daysFromCivil y (m + 1) 1 + (1 - 1)) * 1440 + 0 * 60 + 0) * 60000000000
              > t.unixNano := by omega
          simp only [if_pos c4, hD5, after_mk, hA, decide_True, Bool.not_true,
            Bool.false_eq_true, if_false]
          congr 2
          omega
        · have hm12 : m = 12 := by omega
          subst hm12
          have hjd := daysFromCivil_jan_le_dec y
          have hny := daysFromCivil_next_year y
          have hD6 := date_unixNano y 1 1 0 0 (by omega) (by omega)
            (by unfold inInt64 minInt64 maxInt64; omega)
          have hD7 := date_unixNano (y + 1) 1 1 0 0 (by omega) (by omega)
            (by unfold inInt64 minInt64 maxInt64; omega)
          have hE : ¬ (((daysFromCivil y 1 1 + (1 - 1)) * 1440 + 0 * 60 + 0) * 60000000000
              > t.unixNano) := by omega
          simp only [if_neg c4, hD6, after_mk, hE, decide_False, Bool.not_false, if_true,
            wrap64_eq_self _ hy, hD7]
          congr 2
          omega

/-- The year of an instant that a `time.Time` can hold leaves room for the next
year in an `int`. -/
theorem year_succ_inInt64 (t : Time) (ht : t.Representable) : inInt64 (t.Year + 1) := by
  obtain ⟨era, yoe, doy, mp, hy0, hy1, hd0, hd1, hm0, hm1, hmp, hday0, hday1, h31, hz, hc⟩ :=
    civilFromDays_parts t.unixDay
  unfold Time.Year
  rw [hc]
  unfold Time.Representable minInt64 maxInt64 at ht
  unfold Time.unixDay at hz
  unfold inInt64 minInt64 maxInt64
  simp only
  split_ifs <;> omega

/-- An instant from which the cascade stays in range is one a `time.Time` can
hold, and January 1 of its year does not precede the start of the absolute zero
year of the package. -/
theorem nextInRange_bounds (t : Time) (ht : t.NextInRange) :
    t.Representable ∧
    -9223371966579724800 ≤ daysFromCivil t.Year 1 1 * 86400 + 62135596800 ∧
    (t.unixNano / 60000000000 + 1) * 60 + 62135596800 ≤ 9223372036854775807 := by
  obtain ⟨hm1, hm2, hd1, hd2, hround, -⟩ := civilFromDays_spec t.unixDay
  obtain ⟨-, hmb⟩ := daysFromCivil_month_bounds (civilFromDays t.unixDay).1
    (civilFromDays t.unixDay).2.1 hm1 hm2
  rw [daysFromCivil_day] at hround
  unfold Time.NextInRange maxInt64 at ht
  unfold Time.Representable minInt64 maxInt64 Time.Year
  generalize (civilFromDays t.unixDay).2.2 = dd at hround hd1 hd2
  generalize daysFromCivil (civilFromDays t.unixDay).1 (civilFromDays t.unixDay).2.1 1 = k
    at hround hmb
  generalize daysFromCivil (civilFromDays t.unixDay).1 1 1 = j at hmb ⊢
  unfold Time.unixDay at hround
  unfold Time.unixSec at ht hround ⊢
  refine ⟨⟨by omega, by omega⟩, by omega, by omega⟩

set_option maxRecDepth 100000 in
/-- C18: `* * * * *` parses to the every-minute expression, and for every instant
`t` from which the cascade stays in the range of `time` (`t` at least 366 days
after the start of the absolute zero year -292277022399 of the package, and the
start of the next minute an instant that a `time.Time` can hold) `next(t)` is `t`
truncated to the whole minute plus one minute, whatever hour, day, month or year
boundary lies in between; the reference 2021-01-03T14:35:00Z gives
2021-01-03T14:36:00Z. -/
theorem next_every_minute :
    ParseCron "* * * * *" = .ok everyMinuteCron ∧
    (∀ t : Time, t.NextInRange →
      everyMinuteCron.next t
        = .ok ⟨(t.unixNano / 60000000000 + 1) * 60000000000⟩) ∧
    everyMinuteCron.next (Date 2021 1 3 14 35 0 0) = .ok (Date 2021 1 3 14 36 0 0) := by
  refine ⟨by decide, ?_, by decide⟩
  intro t ht
  obtain ⟨hrep, hlo, hhi⟩ := nextInRange_bounds t ht
  obtain ⟨hm1, hm2, hd1, hd2, hround, h31⟩ := civilFromDays_spec t.unixDay
  obtain ⟨hmi1, hmi2, hh1, hh2, hw1, hw2, htm⟩ := time_of_day t
  refine next_everyMinute_fields t t.Year t.Month t.Day t.Hour t.Minute t.Weekday rfl
    hm1 hm2 hd1 hd2 hh1 hh2 hmi1 hmi2 hw1 hw2 (year_succ_inInt64 t hrep) h31 ?_
    (by omega) hhi
  rw [htm, ← daysFromCivil_day]
  show _ = daysFromCivil (civilFromDays t.unixDay).1 (civilFromDays t.unixDay).2.1
    (civilFromDays t.unixDay).2.2 * 1440 + _ + _
  rw [hround]

set_option maxRecDepth 100000 in
/-- C18 at the end of a 28-day February, of a 29-day February, of a 30-day month
and of a year, each time with seconds past the minute. -/
theorem next_every_minute_witness :
    (Date 2021 2 28 23 59 30 0).NextInRange ∧
    everyMinuteCron.next (Date 2021 2 28 23 59 30 0) = .ok (Date 2021 3 1 0 0 0 0) ∧
    everyMinuteCron.next (Date 2024 2 28 23 59 30 0) = .ok (Date 2024 2 29 0 0 0 0) ∧
    everyMinuteCron.next (Date 2024 4 30 23 59 30 0) = .ok (Date 2024 5 1 0 0 0 0) ∧
    everyMinuteCron.next (Date 2023 12 31 23 59 30 0) = .ok (Date 2024 1 1 0 0 0 0) :=
  ⟨by decide,
   next_every_minute.2.1 (Date 2021 2 28 23 59 30 0) (by decide),
   next_every_minute.2.1 (Date 2024 2 28 23 59 30 0) (by decide),
   next_every_minute.2.1 (Date 2024 4 30 23 59 30 0) (by decide),
   next_every_minute.2.1 (Date 2023 12 31 23 59 30 0) (by decide)⟩

set_option maxRecDepth 100000 in
/-- The range is needed. 292277024627-12-06T15:30:05Z is an instant that a
`time.Time` can hold, two seconds before the last one, but the start of the next
minute is not: every instant the cascade builds from 15:31 of that day on wraps
around to the far past, January 7 at 16:31 of the same year is not after the
reference, and the instant returned after the step to the next year has wrapped
around as well, so it is not after the reference. The start of the absolute zero
year of the package is the instant -9223371966579724800 seconds from January 1 of
year 1. -/
theorem next_every_minute_wraps :
    lastMinuteInstant.Representable ∧ ¬ lastMinuteInstant.NextInRange ∧
    newCTime lastMinuteInstant = ⟨30, 15, 6, 12, 4, 292277024627⟩ ∧
    everyMinuteCron.next lastMinuteInstant = .ok (Date 292277024628 1 7 16 31 0 0) ∧
    Date 292277024628 1 7 16 31 0 0 = ⟨-9223372098987604156000000000⟩ ∧
    (Date 292277024628 1 7 16 31 0 0).After lastMinuteInstant = false ∧
    (Date (-292277022399) 1 1 0 0 0 0).unixSec + 62135596800 = -9223371966579724800 := by
  refine ⟨by decide, by decide, by decide, by decide, by decide, by decide, by decide⟩

/-! ## Theorems: the registry -/

/-- C19: `AddJob` returns an error iff the ID of the config is already registered
or its Schedule fails to parse; whenever it does not succeed the registry is
unchanged, so the job is not registered and a job with that ID is not replaced; on
success the ID was free, the schedule parsed, the registry holds under that ID the
config with its parsed expression and an empty history, and every other entry is
unchanged. With a free ID, a schedule that parses and a history limit that is not
negative it succeeds. -/
theorem addJob_spec {W : Type} (s : Scheduler W) (job : JobConfig W) :
    ((∃ e, (s.AddJob job).1 = .error e) ↔
      ((∃ j, s.jobs job.ID = some j) ∨ ∃ e, ParseCron job.Schedule = .error e)) ∧
    ((s.AddJob job).1 ≠ .ok () → (s.AddJob job).2 = s) ∧
    ((s.AddJob job).1 = .ok () →
      s.jobs job.ID = none ∧
      ∃ cron, ParseCron job.Schedule = .ok cron ∧
        (s.AddJob job).2.jobs job.ID
          = some { jobConfig := job, history := [], historyLimit := s.historyLimit,
                   cron := cron, running := false } ∧
        (∀ id, id ≠ job.ID → (s.AddJob job).2.jobs id = s.jobs id) ∧
        (s.AddJob job).2.historyLimit = s.historyLimit) ∧
    (s.jobs job.ID = none → (∃ cron, ParseCron job.Schedule = .ok cron) →
      0 ≤ s.historyLimit → (s.AddJob job).1 = .ok ()) := by
  unfold Scheduler.AddJob
  cases hj : s.jobs job.ID with
  | some j =>
    simp
  | none =>
    cases hp : ParseCron job.Schedule with
    | error e => simp
    | panic => simp
    | diverge => simp
    | ok cron =>
      by_cases hl : s.historyLimit < 0
      · simp [hl]
      · simp [hl]
        intro id hid
        simp [hid]

set_option maxRecDepth 100000 in
/-- C19 on a scheduler without jobs: adding `sampleJob` succeeds and registers it
with an empty history; adding a job with the same ID again is an error that
leaves the registered job in place. -/
theorem addJob_spec_witness :
    (emptyScheduler.AddJob sampleJob).1 = .ok () ∧
    (emptyScheduler.AddJob sampleJob).2.jobs "a"
      = some { jobConfig := sampleJob, history := [], historyLimit := 10,
               cron := everyMinuteCron, running := false } ∧
    (∃ e, ((emptyScheduler.AddJob sampleJob).2.AddJob sampleJobAgain).1 = .error e) ∧
    ((emptyScheduler.AddJob sampleJob).2.AddJob sampleJobAgain).2
      = (emptyScheduler.AddJob sampleJob).2 := by
  have hok : (emptyScheduler.AddJob sampleJob).1 = .ok () :=
    (addJob_spec emptyScheduler sampleJob).2.2.2 rfl ⟨everyMinuteCron, by decide⟩
      (by decide)
  have hreg : (emptyScheduler.AddJob sampleJob).2.jobs "a"
      = some { jobConfig := sampleJob, history := [], historyLimit := 10,
               cron := everyMinuteCron, running := false } := by
    rfl
  have herr : ∃ e, ((emptyScheduler.AddJob sampleJob).2.AddJob sampleJobAgain).1 = .error e :=
    (addJob_spec (emptyScheduler.AddJob sampleJob).2 sampleJobAgain).1.mpr
      (Or.inl ⟨_, hreg⟩)
  refine ⟨hok, hreg, herr, ?_⟩
  apply (addJob_spec (emptyScheduler.AddJob sampleJob).2 sampleJobAgain).2.1
  obtain ⟨e, he⟩ := herr
  rw [he]
  exact fun h => by cases h

/-- C20: `RemoveJob` and `GetJob` return an error iff the ID is not registered; a
failed `RemoveJob` leaves the registry unchanged; a successful one removes exactly
that ID and leaves every other job unchanged; `GetJob` never changes the registry
and on a registered ID returns the view of that job. -/
theorem removeJob_getJob_spec {W : Type} (s : Scheduler W) (jobID : String) :
    ((∃ e, (s.RemoveJob jobID).1 = .error e) ↔ s.jobs jobID = none) ∧
    ((∃ e, (s.GetJob jobID).1 = .error e) ↔ s.jobs jobID = none) ∧
    (s.jobs jobID = none → (s.RemoveJob jobID).2 = s) ∧
    (∀ j, s.jobs jobID = some j →
      (s.RemoveJob jobID).1 = .ok () ∧
      (s.RemoveJob jobID).2.jobs jobID = none ∧
      (∀ id, id ≠ jobID → (s.RemoveJob jobID).2.jobs id = s.jobs id) ∧
      (s.RemoveJob jobID).2.historyLimit = s.historyLimit) ∧
    (s.GetJob jobID).2 = s ∧
    (∀ j, s.jobs jobID = some j → (s.GetJob jobID).1 = .ok j.Job) := by
  unfold Scheduler.RemoveJob Scheduler.GetJob
  cases hj : s.jobs jobID with
  | none => simp
  | some j =>
    simp
    intro id hid
    simp [hid]

set_option maxRecDepth 100000 in
/-- C20 on the scheduler that holds the job `a` alone: removing or getting `b` is
an error that changes nothing; removing `a` succeeds and leaves no job `a`;
getting `a` succeeds and changes nothing. -/
theorem removeJob_getJob_spec_witness :
    oneJobScheduler.jobs "b" = none ∧
    (∃ e, (oneJobScheduler.RemoveJob "b").1 = .error e) ∧
    (∃ e, (oneJobScheduler.GetJob "b").1 = .error e) ∧
    (oneJobScheduler.RemoveJob "b").2 = oneJobScheduler ∧
    (oneJobScheduler.RemoveJob "a").1 = .ok () ∧
    (oneJobScheduler.RemoveJob "a").2.jobs "a" = none ∧
    (oneJobScheduler.GetJob "a").2 = oneJobScheduler := by
  have hb : oneJobScheduler.jobs "b" = none := by rfl
  have ha : oneJobScheduler.jobs "a"
      = some { jobConfig := sampleJob, history := [], historyLimit := 10,
               cron := everyMinuteCron, running := false } := by
    rfl
  exact ⟨hb, (removeJob_getJob_spec oneJobScheduler "b").1.mpr hb,
    (removeJob_getJob_spec oneJobScheduler "b").2.1.mpr hb,
    (removeJob_getJob_spec oneJobScheduler "b").2.2.1 hb,
    ((removeJob_getJob_spec oneJobScheduler "a").2.2.2.1 _ ha).1,
    ((removeJob_getJob_spec oneJobScheduler "a").2.2.2.1 _ ha).2.1,
    (removeJob_getJob_spec oneJobScheduler "a").2.2.2.2.1⟩

/-! ## Theorems: history of a job -/

/-- Recording a result changes neither the configuration nor the limit. -/
theorem addResult_config {W : Type} (j : jobMetadata W) (ranAt : Time)
    (err : Option JobErr) :
    (j.addResult ranAt err).jobConfig = j.jobConfig ∧
    (j.addResult ranAt err).historyLimit = j.historyLimit ∧
    (j.addResult ranAt err).running = j.running := by
  unfold jobMetadata.addResult
  simp only
  split_ifs <;> exact ⟨rfl, rfl, rfl⟩

/-- History after one recorded result. -/
theorem addResult_history {W : Type} (j : jobMetadata W) (ranAt : Time)
    (err : Option JobErr) :
    (j.addResult ranAt err).history
      = if ((j.history.length : Int) + 1) > j.historyLimit
        then (j.history ++ [historyEntry j (ranAt, err)]).tail
        else j.history ++ [historyEntry j (ranAt, err)] := by
  unfold jobMetadata.addResult historyEntry
  simp only [List.length_append, List.length_singleton, Nat.cast_add, Nat.cast_one]
  split_ifs <;> rfl

/-- Recording results one after the other keeps the last entries that fit under the
limit, whatever history within the limit the job starts from. -/
theorem recordAll_history {W : Type} (rs : List (Time × Option JobErr)) :
    ∀ j : jobMetadata W, 0 ≤ j.historyLimit →
      (j.history.length : Int) ≤ j.historyLimit →
      (recordAll j rs).history
        = (j.history ++ rs.map (historyEntry j)).drop
            (j.history.length + rs.length - j.historyLimit.toNat) := by
  induction rs with
  | nil =>
    intro j h0 hl
    have : j.history.length - j.historyLimit.toNat = 0 := by omega
    simp [recordAll, this]
  | cons r rs ih =>
    intro j h0 hl
    obtain ⟨hc, hlim, -⟩ := addResult_config j r.1 r.2
    have hh := addResult_history j r.1 r.2
    have hentry : historyEntry (j.addResult r.1 r.2) = historyEntry j := by
      funext x; simp [historyEntry, hc]
    have hstep : recordAll j (r :: rs) = recordAll (j.addResult r.1 r.2) rs := rfl
    by_cases hfull : ((j.history.length : Int) + 1) > j.historyLimit
    · rw [if_pos hfull] at hh
      have hlen : (j.addResult r.1 r.2).history.length = j.history.length := by
        rw [hh]; simp
      have hN : j.history.length = j.historyLimit.toNat := by omega
      rw [hstep, ih _ (by rw [hlim]; exact h0) (by rw [hlim, hlen]; exact hl), hentry,
        hlim, hlen, hh]
      have e1 : j.history.length + rs.length - j.historyLimit.toNat = rs.length := by omega
      have e2 : j.history.length + (r :: rs).length - j.historyLimit.toNat
          = rs.length + 1 := by simp only [List.length_cons]; omega
      have htail : ∀ (l m : List History) (e : History),
          (l ++ [e]).tail ++ m = (l ++ e :: m).tail := by
        intro l m e
        cases l <;> simp
      rw [e1, e2, List.map_cons, htail, List.drop_tail]
    · rw [if_neg hfull] at hh
      have hlen : (j.addResult r.1 r.2).history.length = j.history.length + 1 := by
        rw [hh]; simp
      rw [hstep, ih _ (by rw [hlim]; exact h0) (by rw [hlim, hlen]; push_cast; omega),
        hentry, hlim, hlen, hh]
      have e : j.history.length + 1 + rs.length - j.historyLimit.toNat
          = j.history.length + (r :: rs).length - j.historyLimit.toNat := by
        simp only [List.length_cons]; omega
      rw [e]
      simp

/-- C21: for a job with history limit N ≥ 1 and an empty history, after any sequence
of k recorded results the history holds exactly the last min(k, N) of them in the
order recorded, so after N + 1 results the oldest one is gone, and the length never
exceeds the limit. -/
theorem addResult_keeps_last_results {W : Type} (j : jobMetadata W)
    (rs : List (Time × Option JobErr)) (hN : 1 ≤ j.historyLimit)
    (hempty : j.history = []) :
    (recordAll j rs).history
      = (rs.map (historyEntry j)).drop (rs.length - j.historyLimit.toNat) ∧
    ((recordAll j rs).history.length : Int) = min (rs.length : Int) j.historyLimit ∧
    ((recordAll j rs).history.length : Int) ≤ j.historyLimit := by
  have h := recordAll_history rs j (by omega) (by rw [hempty]; simp; omega)
  rw [hempty] at h
  simp only [List.nil_append, List.length_nil, Nat.zero_add] at h
  refine ⟨h, ?_, ?_⟩
  · rw [h, List.length_drop, List.length_map]; omega
  · rw [h, List.length_drop, List.length_map]; omega

/-- Three results recorded under a limit of two, starting from an empty history:
the first one is evicted. -/
theorem addResult_keeps_last_results_witness :
    (1 : Int) ≤ shortHistoryMeta.historyLimit ∧ shortHistoryMeta.history = [] ∧
    (recordAll shortHistoryMeta
        [(⟨0⟩, none), (⟨60000000000⟩, some .ErrJobTimeout),
          (⟨120000000000⟩, some .ErrJobRunning)]).history
      = [⟨"a", ⟨60000000000⟩, some .ErrJobTimeout⟩,
          ⟨"a", ⟨120000000000⟩, some .ErrJobRunning⟩] :=
  ⟨by decide, rfl,
   (addResult_keeps_last_results shortHistoryMeta
      [(⟨0⟩, none), (⟨60000000000⟩, some .ErrJobTimeout),
        (⟨120000000000⟩, some .ErrJobRunning)] (by decide) rfl).1⟩

/-! ## Theorems: admission and execution -/

/-- Admission leaves the configuration, the history and the limit of the job as
they were. -/
theorem shouldRun_keeps {W : Type} (j : jobMetadata W) (startTime now : Time)
    (sel : Admission) :
    (j.shouldRun startTime now sel).2.jobConfig = j.jobConfig ∧
    (j.shouldRun startTime now sel).2.history = j.history ∧
    (j.shouldRun startTime now sel).2.historyLimit = j.historyLimit := by
  unfold jobMetadata.shouldRun
  simp only
  split_ifs
  · exact ⟨rfl, rfl, rfl⟩
  · exact ⟨rfl, rfl, rfl⟩
  · exact ⟨rfl, rfl, rfl⟩
  · cases sel <;> exact ⟨rfl, rfl, rfl⟩

/-- C22: with concurrent runs allowed, `shouldRun` returns `ErrPastStartingDeadline`
iff now is after start + StartingDeadline and nil otherwise; the job is left as it
was, and neither the state of the mutex `running` nor the channel that would be
received from has any influence. -/
theorem shouldRun_concurrent_allowed {W : Type} (j : jobMetadata W)
    (startTime now : Time) (sel : Admission)
    (h : j.jobConfig.AllowConccurentRuns = true) :
    ((j.shouldRun startTime now sel).1 = some .ErrPastStartingDeadline ↔
      now.unixNano > startTime.unixNano + j.jobConfig.StartingDeadline) ∧
    ((j.shouldRun startTime now sel).1 = none ↔
      ¬ now.unixNano > startTime.unixNano + j.jobConfig.StartingDeadline) ∧
    (j.shouldRun startTime now sel).2 = j ∧
    (∀ (r : Bool) (sel2 : Admission),
      (({ j with running := r } : jobMetadata W).shouldRun startTime now sel2).1
          = (j.shouldRun startTime now sel).1 ∧
      (({ j with running := r } : jobMetadata W).shouldRun startTime now sel2).2.running
          = r) := by
  unfold jobMetadata.shouldRun
  simp only [h, if_true, Time.UTC, Time.After, Time.Add, decide_eq_true_eq]
  by_cases hd : now.unixNano > startTime.unixNano + j.jobConfig.StartingDeadline
  · simp [hd]
  · simp [hd]

/-- C22 on a job that allows concurrent runs with a starting deadline of one minute,
scheduled at the epoch: 61 seconds later it is past the deadline, 60 seconds later
it is admitted. -/
theorem shouldRun_concurrent_allowed_witness :
    concurrentMeta.jobConfig.AllowConccurentRuns = true ∧
    (concurrentMeta.shouldRun ⟨0⟩ ⟨61000000000⟩ .lockAquired).1
      = some .ErrPastStartingDeadline ∧
    (concurrentMeta.shouldRun ⟨0⟩ ⟨60000000000⟩ .lockAquired).1 = none :=
  ⟨rfl,
   (shouldRun_concurrent_allowed concurrentMeta ⟨0⟩ ⟨61000000000⟩ .lockAquired rfl).1.2
     (by decide),
   (shouldRun_concurrent_allowed concurrentMeta ⟨0⟩ ⟨60000000000⟩ .lockAquired rfl).2.1.2
     (by decide)⟩

/-- C23: the mutex `running` taken at admission is never released. After an
admitted execution of the sample job has finished, whether the work returned or the
timeout fired, the mutex is still locked, and every later occurrence is rejected
with `ErrJobRunning` without a call of the work function. -/
theorem run_never_releases_guard (exec : Execution) (sel : Admission)
    (t1 now1 t2 now2 : Time) (exec2 : Execution) :
    (sampleMeta.run t1 now1 .lockAquired exec).invoked = true ∧
    (sampleMeta.run t1 now1 .lockAquired exec).job.running = true ∧
    ((sampleMeta.run t1 now1 .lockAquired exec).job.run t2 now2 sel exec2).ret
      = some .ErrJobRunning ∧
    ((sampleMeta.run t1 now1 .lockAquired exec).job.run t2 now2 sel exec2).invoked
      = false := by
  cases exec <;> exact ⟨rfl, rfl, rfl, rfl⟩

/-- C24: when the work function of an admitted execution returns the error `boom`
before the timeout, `run` returns nil and the appended history entry holds nil. -/
theorem run_drops_work_error (t now : Time) :
    (sampleMeta.run t now .lockAquired (.completed (some (.workError "boom")))).invoked
      = true ∧
    (sampleMeta.run t now .lockAquired (.completed (some (.workError "boom")))).ret
      = none ∧
    (sampleMeta.run t now .lockAquired (.completed (some (.workError "boom")))).job.history
      = [⟨"a", t, none⟩] :=
  ⟨rfl, rfl, rfl⟩

/-- C25: when an execution is admitted and the timeout fires before the work
function has returned, `run` returns `ErrJobTimeout` after the work function was
called, and records exactly one entry (job ID, scheduled start time,
`ErrJobTimeout`): it is appended to the history, from which the oldest entry is
dropped if the limit is exceeded, and under a limit of at least one it is the
newest entry. -/
theorem run_timeout {W : Type} (j : jobMetadata W) (startTime now : Time)
    (sel : Admission) (hadm : (j.shouldRun startTime now sel).1 = none) :
    (j.run startTime now sel .contextDone).ret = some .ErrJobTimeout ∧
    (j.run startTime now sel .contextDone).invoked = true ∧
    (j.run startTime now sel .contextDone).job
      = (j.shouldRun startTime now sel).2.addResult startTime (some .ErrJobTimeout) ∧
    (j.run startTime now sel .contextDone).job.history
      = (if ((j.history.length : Int) + 1) > j.historyLimit
         then (j.history ++ [(⟨j.jobConfig.ID, startTime, some .ErrJobTimeout⟩ : History)]).tail
         else j.history ++ [⟨j.jobConfig.ID, startTime, some .ErrJobTimeout⟩]) ∧
    (1 ≤ j.historyLimit →
      (j.run startTime now sel .contextDone).job.history.getLast?
        = some ⟨j.jobConfig.ID, startTime, some .ErrJobTimeout⟩) := by
  obtain ⟨hc, hh, hl⟩ := shouldRun_keeps j startTime now sel
  have hrun : j.run startTime now sel .contextDone
      = ⟨some .ErrJobTimeout,
         (j.shouldRun startTime now sel).2.addResult startTime (some .ErrJobTimeout),
         true⟩ := by
    unfold jobMetadata.run
    generalize j.shouldRun startTime now sel = p at hadm
    obtain ⟨e, j1⟩ := p
    simp only at hadm
    subst hadm
    rfl
  have hhist : (j.run startTime now sel .contextDone).job.history
      = (if ((j.history.length : Int) + 1) > j.historyLimit
         then (j.history ++ [(⟨j.jobConfig.ID, startTime, some .ErrJobTimeout⟩ : History)]).tail
         else j.history ++ [⟨j.jobConfig.ID, startTime, some .ErrJobTimeout⟩]) := by
    rw [hrun]
    simp only
    rw [addResult_history, hh, hl]
    simp only [historyEntry, hc]
  refine ⟨by rw [hrun], by rw [hrun], by rw [hrun], hhist, ?_⟩
  intro hN
  rw [hhist]
  split_ifs with hfull
  · cases hj : j.history with
    | nil => rw [hj] at hfull; simp at hfull; omega
    | cons a l => simp
  · simp

/-- C25 on the sample job scheduled at 00:01:00 of the epoch day and admitted five
seconds later: the timeout is returned and recorded at the scheduled start. -/
theorem run_timeout_witness :
    (sampleMeta.shouldRun ⟨60000000000⟩ ⟨65000000000⟩ .lockAquired).1 = none ∧
    (sampleMeta.run ⟨60000000000⟩ ⟨65000000000⟩ .lockAquired .contextDone).ret
      = some .ErrJobTimeout ∧
    (sampleMeta.run ⟨60000000000⟩ ⟨65000000000⟩ .lockAquired .contextDone).job.history
      = [⟨"a", ⟨60000000000⟩, some .ErrJobTimeout⟩] :=
  ⟨rfl,
   (run_timeout sampleMeta ⟨60000000000⟩ ⟨65000000000⟩ .lockAquired rfl).1,
   (run_timeout sampleMeta ⟨60000000000⟩ ⟨65000000000⟩ .lockAquired rfl).2.2.2.1⟩

/-- C26: when concurrent runs are not allowed and the mutex `running` is locked,
`shouldRun` returns `ErrJobRunning`; `run` returns that error without a call of the
work function and records exactly one entry (job ID, scheduled start time,
`ErrJobRunning`): it is appended to the history, from which the oldest entry is
dropped if the limit is exceeded, and under a limit of at least one it is the
newest entry. -/
theorem run_rejected_while_running {W : Type} (j : jobMetadata W)
    (startTime now : Time) (sel : Admission) (exec : Execution)
    (hconc : j.jobConfig.AllowConccurentRuns = false) (hheld : j.running = true) :
    (j.shouldRun startTime now sel).1 = some .ErrJobRunning ∧
    (j.run startTime now sel exec).ret = some .ErrJobRunning ∧
    (j.run startTime now sel exec).invoked = false ∧
    (j.run startTime now sel exec).job.history
      = (if ((j.history.length : Int) + 1) > j.historyLimit
         then (j.history ++ [(⟨j.jobConfig.ID, startTime, some .ErrJobRunning⟩ : History)]).tail
         else j.history ++ [⟨j.jobConfig.ID, startTime, some .ErrJobRunning⟩]) ∧
    (1 ≤ j.historyLimit →
      (j.run startTime now sel exec).job.history.getLast?
        = some ⟨j.jobConfig.ID, startTime, some .ErrJobRunning⟩) := by
  have hs : j.shouldRun startTime now sel = (some .ErrJobRunning, j) := by
    unfold jobMetadata.shouldRun
    simp [hconc, hheld]
  have hrun : j.run startTime now sel exec
      = ⟨some .ErrJobRunning, j.addResult startTime (some .ErrJobRunning), false⟩ := by
    unfold jobMetadata.run
    rw [hs]
  have hhist : (j.run startTime now sel exec).job.history
      = (if ((j.history.length : Int) + 1) > j.historyLimit
         then (j.history ++ [(⟨j.jobConfig.ID, startTime, some .ErrJobRunning⟩ : History)]).tail
         else j.history ++ [⟨j.jobConfig.ID, startTime, some .ErrJobRunning⟩]) := by
    rw [hrun]
    simp only
    rw [addResult_history]
    simp only [historyEntry]
  refine ⟨by rw [hs], by rw [hrun], by rw [hrun], hhist, ?_⟩
  intro hN
  rw [hhist]
  split_ifs with hfull
  · cases hj : j.history with
    | nil => rw [hj] at hfull; simp at hfull; omega
    | cons a l => simp
  · simp

/-- C26 on the sample job while its mutex is locked: the occurrence scheduled at
00:02:00 of the epoch day is rejected and recorded. -/
theorem run_rejected_while_running_witness :
    busyMeta.jobConfig.AllowConccurentRuns = false ∧ busyMeta.running = true ∧
    (busyMeta.run ⟨120000000000⟩ ⟨120000000000⟩ .startingDeadlineExceeded
        (.completed none)).ret = some .ErrJobRunning ∧
    (busyMeta.run ⟨120000000000⟩ ⟨120000000000⟩ .startingDeadlineExceeded
        (.completed none)).job.history = [⟨"a", ⟨120000000000⟩, some .ErrJobRunning⟩] :=
  ⟨rfl, rfl,
   (run_rejected_while_running busyMeta ⟨120000000000⟩ ⟨120000000000⟩
      .startingDeadlineExceeded (.completed none) rfl rfl).2.1,
   (run_rejected_while_running busyMeta ⟨120000000000⟩ ⟨120000000000⟩
      .startingDeadlineExceeded (.completed none) rfl rfl).2.2.2.1⟩

/-! ## Theorems: the day fields of a parsed expression -/

/-- C29: an expression returned by `ParseCron` or by `NewCron` never has both day
fields nil, so for it the guard of the first branch of `nextDay`, which returns the
day plus one, is false. -/
theorem parsed_day_fields_not_both_nil (cronConfig mi ho dm mo dw : String) (c : Cron)
    (h : ParseCron cronConfig = .ok c ∨ NewCron mi ho dm mo dw = .ok c) :
    ¬ (c.DayOfMonth = none ∧ c.DayOfWeek = none) := by
  have key : ∀ a b d e f : String, NewCron a b d e f = .ok c →
      ¬ (c.DayOfMonth = none ∧ c.DayOfWeek = none) := by
    intro a b d e f hn
    obtain ⟨m, hh, dd, mth, w, -, -, -, -, -, hc⟩ := newCron_ok a b d e f c hn
    rw [hc]
    split_ifs <;> simp
  rcases h with h | h
  · obtain ⟨f0, f1, f2, f3, f4, -, hn⟩ := parseCron_ok_fields cronConfig c h
    exact key _ _ _ _ _ hn
  · exact key _ _ _ _ _ h

set_option maxRecDepth 100000 in
/-- C29 on `0 1 * * 1` and on the fields `0`, `1`, `1`, `*`, `*`: one day field is
nil, the other is not. -/
theorem parsed_day_fields_not_both_nil_witness :
    ParseCron "0 1 * * 1" = .ok mondayCron ∧
    NewCron "0" "1" "1" "*" "*" = .ok firstOfMonthCron ∧
    ¬ (mondayCron.DayOfMonth = none ∧ mondayCron.DayOfWeek = none) ∧
    ¬ (firstOfMonthCron.DayOfMonth = none ∧ firstOfMonthCron.DayOfWeek = none) :=
  ⟨by decide, by decide,
   parsed_day_fields_not_both_nil "0 1 * * 1" "" "" "" "" "" mondayCron
     (Or.inl (by decide)),
   parsed_day_fields_not_both_nil "" "0" "1" "1" "*" "*" firstOfMonthCron
     (Or.inr (by decide))⟩

/-! ## Theorems: the loop counter of a step -/

set_option maxRecDepth 100000 in
/-- C30: `sliceWithStep 1 59 9223372036854775807` is `[1, -9223372036854775808, -1]`:
after 1 the counter wraps around twice to a negative value, which passes the test
against 59 and is appended, so the day-of-month item `1/9223372036854775807` does
not parse to `[1]`. -/
theorem sliceWithStep_counter_wraps :
    sliceWithStep 1 59 9223372036854775807 = .ok [1, -9223372036854775808, -1] ∧
    ¬ (∀ v ∈ [(1 : Int), -9223372036854775808, -1], 1 ≤ v ∧ v ≤ 59) ∧
    wrap64 (1 + 9223372036854775807) = -9223372036854775808 ∧
    parseNumber "1/9223372036854775807" 1 31 = .ok [1, -9223372036854775808, -1] ∧
    parseNumber "1/9223372036854775807" 1 31 ≠ .ok [1] := by
  refine ⟨by decide, ?_, by decide, by decide, by decide⟩
  intro h
  have := (h (-1) (by simp)).1
  omega

/-! ## Theorems: the day-merge rule -/

/-- A strictly increasing list is its own sorted list of distinct values. -/
theorem sortUnique_of_sorted (l : List Int) (h : l.Sorted (· < ·)) : sortUnique l = l := by
  unfold sortUnique
  rw [List.Nodup.dedup h.nodup]
  exact List.Sorted.insertionSort_eq (h.imp (fun hab => le_of_lt hab))

/-- On a non-empty strictly increasing list `getFirstElementGreaterThan` returns the
circular successor, which is an element of the list. -/
theorem getFirst_circularNext (l : List Int) (v : Int) (hne : l ≠ [])
    (hs : l.Sorted (· < ·)) :
    getFirstElementGreaterThan (some l) v = .ok (circularNext l v) ∧
    circularNext l v ∈ l := by
  unfold getFirstElementGreaterThan circularNext
  rw [sortUnique_of_sorted l hs]
  cases hf : l.find? (fun x => decide (x > v)) with
  | some x =>
    simp only [hf]
    exact ⟨trivial, List.mem_of_find?_eq_some hf⟩
  | none =>
    cases l with
    | nil => exact absurd rfl hne
    | cons first rest =>
      simp only [hf]
      exact ⟨rfl, by simp⟩

/-- The last step of `nextDay` on the current day and one candidate. -/
theorem merge_two (d a : Int) :
    sliceAt ([d, a].insertionSort (· ≤ ·))
      (Int.tmod (wrap64 (slicesIndex ([d, a].insertionSort (· ≤ ·)) d + 1))
        ((([d, a].insertionSort (· ≤ ·)).length : Nat) : Int))
      = .ok (if d ∈ [a] then d else circularNext [d, a] d) := by
  have t1 : Int.tmod (wrap64 1) 2 = 1 := by decide
  have t2 : Int.tmod (wrap64 2) 2 = 0 := by decide
  rcases lt_trichotomy d a with h | h | h
  · have ho : [d, a].insertionSort (· ≤ ·) = [d, a] := by
      simp [List.insertionSort, List.orderedInsert, h.le]
    have hi : slicesIndex [d, a] d = 0 := by
      simp [slicesIndex, List.indexOf?, List.findIdx?]
    have hu : sortUnique [d, a] = [d, a] :=
      sortUnique_of_sorted _ (by simp [h])
    rw [ho, hi]
    simp [circularNext, hu, h, h.ne, List.find?, sliceAt, t1]
  · subst h
    have ho : [d, d].insertionSort (· ≤ ·) = [d, d] := by
      simp [List.insertionSort, List.orderedInsert]
    have hi : slicesIndex [d, d] d = 0 := by
      simp [slicesIndex, List.indexOf?, List.findIdx?]
    rw [ho, hi]
    simp [sliceAt, t1]
  · have ho : [d, a].insertionSort (· ≤ ·) = [a, d] := by
      simp [List.insertionSort, List.orderedInsert, not_le.mpr h]
    have hi : slicesIndex [a, d] d = 1 := by
      simp [slicesIndex, List.indexOf?, List.findIdx?, h.ne]
    have hu : sortUnique [d, a] = [a, d] := by
      unfold sortUnique
      rw [List.Nodup.dedup (by simp [h.ne.symm])]
      exact ho
    rw [ho, hi]
    simp [circularNext, hu, h.ne.symm, List.find?, sliceAt, t2, not_lt.mpr h.le]

/-- The comparisons that follow from a strict inequality. -/
theorem lt_facts (x y : Int) (h : x < y) :
    x ≤ y ∧ ¬ y ≤ x ∧ x ≠ y ∧ y ≠ x ∧ ¬ y < x := by
  omega

/-- The last step of `nextDay` on the current day and two candidates. -/
theorem merge_three (d a b : Int) :
    sliceAt ([d, a, b].insertionSort (· ≤ ·))
      (Int.tmod (wrap64 (slicesIndex ([d, a, b].insertionSort (· ≤ ·)) d + 1))
        ((([d, a, b].insertionSort (· ≤ ·)).length : Nat) : Int))
      = .ok (if d ∈ [a, b] then d else circularNext [d, a, b] d) := by
  have t1 : Int.tmod (wrap64 1) 3 = 1 := by decide
  have t2 : Int.tmod (wrap64 2) 3 = 2 := by decide
  have t3 : Int.tmod (wrap64 3) 3 = 0 := by decide
  rcases lt_trichotomy d a with h1 | h1 | h1 <;>
    rcases lt_trichotomy d b with h2 | h2 | h2 <;>
    rcases lt_trichotomy a b with h3 | h3 | h3 <;>
    first
    | (exfalso; omega)
    | skip
  all_goals
    try subst h1
    try subst h2
    try subst h3
    try have f1 := lt_facts _ _ h1
    try have f2 := lt_facts _ _ h2
    try have f3 := lt_facts _ _ h3
    simp [*, List.insertionSort, List.orderedInsert, slicesIndex, List.indexOf?,
      List.findIdx?, sliceAt, circularNext, sortUnique, List.find?]

/-- Wrapping leaves a small `int` unchanged. -/
theorem wrap64_small (x : Int) (h0 : -100 ≤ x) (h1 : x ≤ 100) : wrap64 x = x := by
  unfold wrap64
  omega

/-- The candidate that `nextDay` derives from the next allowed weekday, for a
weekday in 0..6 and a day in 1..31, is computed without wrap-around. -/
theorem weekday_candidate (d w e : Int) (hd0 : 1 ≤ d) (hd1 : d ≤ 31) (hw0 : 0 ≤ w)
    (hw1 : w ≤ 6) (he0 : 0 ≤ e) (he1 : e ≤ 6) :
    Int.tmod (wrap64 (d + Int.tmod (wrap64 (wrap64 (e - w) + 7)) 7)) 31
      = (d + (e - w + 7) % 7) % 31 := by
  have hk : Int.tmod (e - w + 7) 7 = (e - w + 7) % 7 :=
    Int.tmod_eq_emod (by omega) (by omega)
  rw [wrap64_small (e - w) (by omega) (by omega),
    wrap64_small (e - w + 7) (by omega) (by omega), hk,
    wrap64_small (d + (e - w + 7) % 7) (by omega) (by omega)]
  exact Int.tmod_eq_emod (by omega) (by omega)

/-- C28, as the code has it: for a day of month in 1..31, a weekday in 0..6 and
day fields that are nil or non-empty strictly increasing lists within their domains,
`nextDay` returns the current day itself when the next allowed day of month or the
day derived from the next allowed weekday equals it, because repeated candidates are
kept and the entry after the first occurrence of the current day is taken; otherwise
it returns the entry that follows the current day, circularly, in the sorted set of
distinct candidates; with both fields nil it returns the day plus one. -/
theorem nextDay_merge (cronDayOfWeek cronDayOfMonth : Option (List Int)) (w d : Int)
    (hd : 1 ≤ d ∧ d ≤ 31) (hw : 0 ≤ w ∧ w ≤ 6)
    (hdm : fieldInvariant 1 31 cronDayOfMonth) (hdw : fieldInvariant 0 6 cronDayOfWeek) :
    nextDay cronDayOfWeek cronDayOfMonth w d
      = .ok (if d ∈ dayCandidates cronDayOfWeek cronDayOfMonth w d then d
             else nextDaySpec cronDayOfWeek cronDayOfMonth w d) := by
  cases cronDayOfMonth with
  | none =>
    cases cronDayOfWeek with
    | none =>
      simp [nextDay, dayCandidates, nextDaySpec, wrap64_small (d + 1) (by omega) (by omega)]
    | some days =>
      obtain ⟨hne, hs, hr⟩ := hdw days rfl
      obtain ⟨hg, hmem⟩ := getFirst_circularNext days w hne hs
      have hb := hr _ hmem
      have hm := merge_two d ((d + (circularNext days w - w + 7) % 7) % 31)
      simp only [nextDay, dayCandidates, nextDaySpec, hg, Res.bind,
        weekday_candidate d w _ hd.1 hd.2 hw.1 hw.2 hb.1 hb.2]
      simpa using hm
  | some dom =>
    obtain ⟨hne1, hs1, hr1⟩ := hdm dom rfl
    obtain ⟨hg1, hmem1⟩ := getFirst_circularNext dom d hne1 hs1
    cases cronDayOfWeek with
    | none =>
      have hm := merge_two d (circularNext dom d)
      simp only [nextDay, dayCandidates, nextDaySpec, hg1, Res.bind]
      simpa using hm
    | some days =>
      obtain ⟨hne, hs, hr⟩ := hdw days rfl
      obtain ⟨hg, hmem⟩ := getFirst_circularNext days w hne hs
      have hb := hr _ hmem
      have hm := merge_three d (circularNext dom d)
        ((d + (circularNext days w - w + 7) % 7) % 31)
      simp only [nextDay, dayCandidates, nextDaySpec, hg, hg1, Res.bind,
        weekday_candidate d w _ hd.1 hd.2 hw.1 hw.2 hb.1 hb.2]
      simpa using hm

/-- C28 on the day fields `3` and `6` of the expression `32 3 3 3 6`, on Sunday the
3rd: the next allowed day of month is the 3rd itself and the next Saturday is the
9th, so the distinct candidates are 3 and 9 and the entry after 3 is 9, but
`nextDay` sorts `[3, 3, 9]` and returns the entry after the first 3, which is 3. -/
theorem nextDay_repeated_candidate :
    dayCandidates (some [6]) (some [3]) 0 3 = [3, 9] ∧
    nextDaySpec (some [6]) (some [3]) 0 3 = 9 ∧
    nextDay (some [6]) (some [3]) 0 3 = .ok 3 ∧
    nextDay (some [6]) (some [3]) 0 3 ≠ .ok (nextDaySpec (some [6]) (some [3]) 0 3) := by
  refine ⟨by decide, by decide, by decide, by decide⟩

/-- C28 as the code has it, on Sunday the 3rd with the day fields `3` and `6`, and on
Sunday the 5th with the weekday field `1` alone. -/
theorem nextDay_merge_witness :
    fieldInvariant 1 31 (some [3]) ∧ fieldInvariant 0 6 (some [6]) ∧
    fieldInvariant 0 6 (some [1]) ∧
    nextDay (some [6]) (some [3]) 0 3 = .ok 3 ∧
    nextDay (some [1]) none 0 5 = .ok 6 :=
  ⟨by simp [fieldInvariant], by simp [fieldInvariant], by simp [fieldInvariant],
   (nextDay_merge (some [6]) (some [3]) 0 3 (by decide) (by decide)
      (by simp [fieldInvariant]) (by simp [fieldInvariant])).trans (by decide),
   (nextDay_merge (some [1]) none 0 5 (by decide) (by decide)
      (by simp [fieldInvariant]) (by simp [fieldInvariant])).trans (by decide)⟩

set_option maxRecDepth 100000 in
/-- The test case `March 3rd every year at 3:32`: from Sunday 2021-01-03 14:36 the
day stays the 3rd after `nextDay`, and the month step then yields 2021-03-03 03:32,
the value the test expects. -/
theorem next_march_third :
    newCTime (Date 2021 1 3 14 36 0 0) = ⟨36, 14, 3, 1, 0, 2021⟩ ∧
    nextDay marchThirdCron.DayOfWeek marchThirdCron.DayOfMonth 0 3 = .ok 3 ∧
    marchThirdCron.next (Date 2021 1 3 14 36 0 0) = .ok (Date 2021 3 3 3 32 0 0) := by
  refine ⟨by decide, by decide, by decide⟩

end Cronroutine
